import Mathlib

/-!
Verification of the NinaPro helper preprocessing library (`nina_helper.py`).

The definitions below are a shallow embedding of the library's pure core:
numpy arrays become `List`s, machine `int8` casts become explicit wraparound
on `Int`, and the file-reading wrappers are dropped (the claims are about the
in-memory algorithms those wrappers share).  The random source used by the
split generators is modelled as an explicit list of naturals; a draw
`np.random.randint(0, k)` consumes the next element `r` and uses `r % k`.
Partial (crashing) operations return `Option`, with `none` standing for a
raised Python exception, and `none` also standing for exhaustion of the
supplied random stream in the (possibly unbounded) balanced-split retry loop.
-/

/-- Banker's rounding of `s / 2`, matching Python's `int(round(s / 2))` for a
nonnegative integer `s` (floats of this size divide by two exactly, and
Python's `round` rounds halves to even). -/
def rnd2 (s : Nat) : Nat :=
  if s % 2 = 0 then s / 2
  else if (s / 2) % 2 = 0 then s / 2 else s / 2 + 1

/-- Wraparound into the signed 8-bit range, matching numpy `astype('int8')`. -/
def toInt8 (x : Int) : Int := (x + 128) % 256 - 128

/-- Python slice assignment `l[a:b] = v` on a one-dimensional array, for
nonnegative bounds (the only case the embedded code reaches): every position
`p` with `a ≤ p < b` receives `v`. -/
def setRange : List Int → Nat → Nat → Int → List Int
  | [], _, _, _ => []
  | x :: xs, a, b, v =>
    (if a = 0 ∧ 0 < b then v else x) :: setRange xs (a - 1) (b - 1) v

/-- Transition indices of a movement-label stream:
`np.where(np.diff(move))[0]`, the indices `i` with `move[i] ≠ move[i+1]`,
in ascending order. -/
def moveRegions (move : List Int) : List Nat :=
  (List.range (move.length - 1)).filter
    (fun i => !(move.getD i 0 == move.getD (i + 1) 0))

/-- State threaded through the segmentation loop of the import functions. -/
structure SegState where
  rep : List Int
  regions : List Nat
  lastEnd : Nat
  curRep : Int
  nbCapped : Nat
  deriving Repr, DecidableEq

/-- One iteration `i` of the segmentation loop shared by `import_db1`,
`import_db2`, `import_db3` and `import_subject` (the body of
`for i in range(nb_reps - 1)`). -/
def segStep (mr : List Nat) (capS : Nat) (nbU : Int) (i : Nat) (st : SegState) :
    SegState :=
  let a := mr.getD (2 * (i + 1) - 1) 0
  let b := mr.getD (2 * (i + 1)) 0
  let midpoint := rnd2 (a + b) + 1
  let trailing := midpoint - a
  let st1 : SegState :=
    if trailing ≤ capS then
      ⟨setRange st.rep st.lastEnd midpoint (toInt8 st.curRep),
       (st.regions.set (2 * i) st.lastEnd).set (2 * i + 1) (midpoint - 1),
       midpoint, st.curRep, st.nbCapped⟩
    else
      let repEnd := a + capS
      ⟨setRange st.rep st.lastEnd repEnd (toInt8 st.curRep),
       (st.regions.set (2 * i) st.lastEnd).set (2 * i + 1) (repEnd - 1),
       b - capS, st.curRep, st.nbCapped + 2⟩
  let nr := st1.curRep + 1
  { st1 with curRep := if nbU < nr then 1 else nr }

/-- Run iterations `0, 1, …, k-1` of the segmentation loop. -/
def segRun (mr : List Nat) (capS : Nat) (nbU : Int) : Nat → SegState → SegState
  | 0, st => st
  | k + 1, st => segStep mr capS nbU k (segRun mr capS nbU k st)

/-- Output of the repetition segmenter: refined repetition labels, the flat
`rep_regions` index array, and the truncation counter `nb_capped`. -/
structure SegOut where
  rep : List Int
  repRegions : List Nat
  nbCapped : Nat
  deriving Repr, DecidableEq

/-- The repetition re-segmentation block shared verbatim by `import_db1`,
`import_db2`, `import_db3`, `import_db1_unrefined`, `import_db2_unrefined`
and `import_subject` (with `fs = 100` for DB1 and `fs = 2000` for DB2/DB3).
`move` is the concatenated movement-label stream (its length equals the
signal row count `emg.shape[0]` by construction in the import functions) and
`rawRep` the concatenated raw repetition stream, used only for its number of
distinct values.  `none` models the `IndexError` raised when the stream has
fewer than two transitions. -/
def segmentReps (move rawRep : List Int) (restLengthCap fs : Nat) :
    Option SegOut :=
  let mr := moveRegions move
  if mr.length < 2 then none else
  let capS := restLengthCap * fs
  let nbU : Int := (rawRep.dedup.length : Int) - 1
  let m := rnd2 mr.length
  let st0 : SegState :=
    ⟨List.replicate rawRep.length 0, List.replicate mr.length 0,
     rnd2 (mr.getD 0 0), 1, 0⟩
  let st := segRun mr capS nbU (m - 1) st0
  let endIdx := rnd2 (move.length + mr.getD (mr.length - 1) 0)
  some ⟨setRange st.rep st.lastEnd endIdx (toInt8 st.curRep),
        (st.regions.set (mr.length - 2) st.lastEnd).set
          (mr.length - 1) (endIdx - 1),
        st.nbCapped⟩

/-- The number of distinct nonzero values in the raw repetition stream (the
"cycle length" in the spec's sense). -/
def cycleLength (rawRep : List Int) : Nat :=
  (rawRep.filter (fun x => !(x == 0))).dedup.length

/-- Interpret the flat `rep_regions` array as (start, end) pairs. -/
def toPairs : List Nat → List (Nat × Nat)
  | a :: b :: rest => (a, b) :: toPairs rest
  | _ => []

/-- Flatten (start, end) pairs back into the flat index-array form. -/
def flatPairs : List (Nat × Nat) → List Nat
  | [] => []
  | p :: ps => p.1 :: p.2 :: flatPairs ps

/-- Sum of the inclusive block lengths `end - start + 1` of a region table. -/
def sumLenInt (ps : List (Nat × Nat)) : Int :=
  (ps.map (fun p => (p.2 : Int) - (p.1 : Int) + 1)).sum

/-- Total of the signed gaps `next.start - prev.end - 1` between consecutive
regions of a region table. -/
def adjGaps : List (Nat × Nat) → Int
  | p :: q :: rest => ((q.1 : Int) - (p.2 : Int) - 1) + adjGaps (q :: rest)
  | _ => 0

/-- Index lookup `get_idxs(in_array, to_find)`: for each value of `to_find`
in the order given, the ascending positions where `in_array` equals it, all
concatenated.  This models
`np.squeeze(np.concatenate([np.where(in_array == x) for x in to_find], axis=1))`
as a flat index list. -/
def getIdxs (inArray : List Int) (toFind : List Int) : List Nat :=
  (toFind.map (fun x =>
    (List.range inArray.length).filter (fun i => inArray.getD i 0 == x))).flatten

/-- Insertion of an integer into a sorted list (helper for `sortInts`). -/
def insertSorted (x : Int) : List Int → List Int
  | [] => [x]
  | y :: ys => if x ≤ y then x :: y :: ys else y :: insertSorted x ys

/-- Ascending insertion sort on integers. -/
def sortInts : List Int → List Int
  | [] => []
  | x :: xs => insertSorted x (sortInts xs)

/-- `np.unique` on a one-dimensional integer array: the sorted distinct
values. -/
def npUnique (l : List Int) : List Int := sortInts l.dedup

/-- `itertools.combinations(l, k)` in the library's usage: all length-`k`
sublists of `l`, in the order `combinations` emits them. -/
def combinationsList : List Int → Nat → List (List Int)
  | _, 0 => [[]]
  | [], _ + 1 => []
  | x :: xs, k + 1 =>
      (combinationsList xs k).map (fun c => x :: c) ++ combinationsList xs (k + 1)

/-- `np.setdiff1d(l, r)`: the sorted distinct values of `l` not in `r`. -/
def setdiff1d (l r : List Int) : List Int :=
  sortInts ((l.filter (fun x => !(r.contains x))).dedup)

/-- Maximum of a list of naturals (0 on the empty list; the library only
applies it to nonempty count arrays). -/
def listMax : List Nat → Nat
  | [] => 0
  | x :: xs => max x (listMax xs)

/-- The balance check of `gen_split_balanced`:
`_, counts = np.unique(rows, return_counts=True); max(counts)`.
`none` models the `ValueError` of `max` on an empty array. -/
def maxCount (rows : List (List Int)) : Option Nat :=
  let es := rows.flatten
  if es.isEmpty then none
  else some (listMax (es.dedup.map (fun v => es.count v)))

/-- State of the retry/reset loop of `gen_split_balanced`. -/
structure BalSt where
  testReps : List (List Int)
  pool : List (List Int)
  curSplit : Nat
  resetCounter : Nat
  deriving Repr, DecidableEq

/-- Fresh `test_reps` table: all-zero rows, with the pinned `base` row first
when one is supplied. -/
def resetTest (nbSplits nbTest : Nat) : Option (List Int) → List (List Int)
  | none => List.replicate nbSplits (List.replicate nbTest 0)
  | some b => (List.replicate nbSplits (List.replicate nbTest 0)).set 0 b

/-- Index of the first fold still to generate after (re)initialisation. -/
def baseSplit : Option (List Int) → Nat
  | none => 0
  | some _ => 1

/-- The `while cur_split < nb_splits` loop of `gen_split_balanced`.  Each
draw consumes one element of the random stream; an exhausted stream yields
`none` (the Python loop would simply keep running). -/
def balLoop (nbSplits nbTest : Nat) (poolCopy : List (List Int))
    (base : Option (List Int)) :
    List Nat → BalSt → Option (List (List Int))
  | rs, st =>
    if nbSplits ≤ st.curSplit then some st.testReps else
    match rs with
    | [] => none
    | r :: rs' =>
      let st1 : BalSt :=
        if 10 ≤ st.resetCounter ∨ st.pool.isEmpty then
          ⟨resetTest nbSplits nbTest base, poolCopy, baseSplit base, 0⟩
        else st
      if st1.pool.isEmpty then none else
      let idx := r % st1.pool.length
      let row := st1.pool.getD idx []
      let tr1 := st1.testReps.set st1.curSplit row
      let pool1 := st1.pool.eraseIdx idx
      match maxCount (tr1.take (st1.curSplit + 1)) with
      | none => none
      | some mx =>
        if nbTest < mx then
          balLoop nbSplits nbTest poolCopy base rs'
            ⟨tr1.set st1.curSplit (List.replicate nbTest 0), pool1,
             st1.curSplit, st1.resetCounter + 1⟩
        else
          balLoop nbSplits nbTest poolCopy base rs'
            ⟨tr1, pool1, st1.curSplit + 1, 0⟩

/-- `gen_split_balanced(rep_ids, nb_test, base)`.  `none` models any raised
exception (negative `np.zeros` dimension when `nb_test > len(rep_ids)`, a
`base` matching no combination, a draw from an empty pool, `max` of an empty
count array) as well as exhaustion of the supplied random stream. -/
def genSplitBalanced (repIds : List Int) (nbTest : Nat)
    (base : Option (List Int)) (randoms : List Nat) :
    Option (List (List Int) × List (List Int)) :=
  let nbReps := repIds.length
  let nbSplits := nbReps
  if nbReps < nbTest then none else
  let allCombos := combinationsList repIds nbTest
  let init : Option (List (List Int) × Nat) :=
    match base with
    | none => some (allCombos, 0)
    | some b => if b ∈ allCombos then some (allCombos.erase b, 1) else none
  match init with
  | none => none
  | some (pool0, cs0) =>
    (balLoop nbSplits nbTest pool0 base randoms
        ⟨resetTest nbSplits nbTest base, pool0, cs0, 0⟩).map
      (fun testReps => (testReps.map (fun row => setdiff1d repIds row), testReps))

/-- The `for i in range(cur_split, nb_splits)` loop of `gen_split_rand`:
draw a random unused combination for each remaining fold. -/
def randLoop (repIds : List Int) :
    Nat → List Nat → List (List Int) →
    List (List Int) → List (List Int) → Nat →
    Option (List (List Int) × List (List Int))
  | 0, _, _, train, test, _ => some (train, test)
  | _ + 1, [], _, _, _, _ => none
  | k + 1, r :: rs, pool, train, test, i =>
    if pool.isEmpty then none else
    let idx := r % pool.length
    let row := pool.getD idx []
    randLoop repIds k rs (pool.eraseIdx idx)
      (train.set i (setdiff1d repIds row)) (test.set i row) (i + 1)

/-- `gen_split_rand(rep_ids, nb_test, nb_splits, base)`. -/
def genSplitRand (repIds : List Int) (nbTest nbSplits : Nat)
    (base : Option (List Int)) (randoms : List Nat) :
    Option (List (List Int) × List (List Int)) :=
  let nbReps := repIds.length
  if nbReps < nbTest then none else
  let allCombos := combinationsList repIds nbTest
  let train0 := List.replicate nbSplits (List.replicate (nbReps - nbTest) (0 : Int))
  let test0 := List.replicate nbSplits (List.replicate nbTest (0 : Int))
  match base with
  | none => randLoop repIds nbSplits randoms allCombos train0 test0 0
  | some b =>
    if b ∈ allCombos then
      randLoop repIds (nbSplits - 1) randoms (allCombos.erase b)
        (train0.set 0 (setdiff1d repIds b)) (test0.set 0 b) 1
    else none

/-- Candidate window end positions of `get_windows`:
`range(window_len - 1, nb_obs, window_inc)`. -/
def possibleTargets (nbObs windowLen windowInc : Nat) : List Nat :=
  if nbObs < windowLen then []
  else (List.range ((nbObs - windowLen) / windowInc + 1)).map
    (fun k => windowLen - 1 + k * windowInc)

/-- The window end positions retained by `get_windows`, in the order the
code produces them (grouped by requested repetition value, then regrouped by
requested movement value when a movement filter is given). -/
def windowTargets (nbObs windowLen windowInc : Nat) (reps moves : List Int)
    (whichReps : List Int) (whichMoves : Option (List Int)) : List Nat :=
  let pt := possibleTargets nbObs windowLen windowInc
  let t1idx := getIdxs (pt.map (fun i => reps.getD i 0)) whichReps
  let t1 := t1idx.map (fun k => windowLen - 1 + k * windowInc)
  match whichMoves with
  | none => t1
  | some wm =>
    let mt := getIdxs (t1.map (fun i => moves.getD i 0)) wm
    mt.map (fun k => t1.getD k 0)

/-- The candidate end positions retained by the membership criteria of the
spec: repetition label at the end sample in `whichReps` and, when a movement
filter is given, movement label at the end sample in `whichMoves`. -/
def retainedEnds (nbObs windowLen windowInc : Nat) (reps moves : List Int)
    (whichReps : List Int) (whichMoves : Option (List Int)) : List Nat :=
  (possibleTargets nbObs windowLen windowInc).filter
    (fun t => whichReps.contains (reps.getD t 0) &&
      match whichMoves with
      | none => true
      | some wm => wm.contains (moves.getD t 0))

/-- The `window_len` signal rows ending at (and including) end position `t`:
`emg[win_start:win_end + 1, :]`. -/
def winSlice {α : Type} [Inhabited α] (emg : List (List α)) (windowLen t : Nat) :
    List (List α) :=
  (List.range windowLen).map (fun j => emg.getD (t + 1 - windowLen + j) [])

/-- `get_windows(which_reps, window_len, window_inc, emg, movements,
repetitons, which_moves)`.  The signal entries are kept polymorphic (the
`dtype` cast preserves the sample values the claims speak about).  `none`
models the crash that occurs when `np.squeeze` collapses a single retained
index to a 0-d array (`targets.shape[0]` / `np.where` on a 0-d operand). -/
def getWindows {α : Type} [Inhabited α] (whichReps : List Int)
    (windowLen windowInc : Nat) (emg : List (List α)) (moves reps : List Int)
    (whichMoves : Option (List Int)) :
    Option (List (List (List α)) × List Int × List Int) :=
  let nbObs := emg.length
  let pt := possibleTargets nbObs windowLen windowInc
  let t1idx := getIdxs (pt.map (fun i => reps.getD i 0)) whichReps
  if t1idx.length = 1 then none else
  let t1 := t1idx.map (fun k => windowLen - 1 + k * windowInc)
  match whichMoves with
  | none =>
    some (t1.map (fun t => winSlice emg windowLen t),
          t1.map (fun t => toInt8 (moves.getD t 0)),
          t1.map (fun t => toInt8 (reps.getD t 0)))
  | some wm =>
    let mt := getIdxs (t1.map (fun i => moves.getD i 0)) wm
    if mt.length = 1 then none else
    let targets := mt.map (fun k => t1.getD k 0)
    some (targets.map (fun t => winSlice emg windowLen t),
          targets.map (fun t => toInt8 (moves.getD t 0)),
          targets.map (fun t => toInt8 (reps.getD t 0)))

/-- Python `max` over a movement-label array (labels are nonnegative in this
pipeline, so folding from 0 agrees with `max` on the nonempty arrays that
the importers see). -/
def maxIntL (l : List Int) : Int := l.foldr max 0

/-- The movement-label concatenation and renumbering of `import_db1` for the
three exercise files of one DB1 subject, before rest/movement segmentation:
nonzero labels of later sessions are offset by the maximum label seen so
far, and the final stream is cast to `int8`. -/
def remapDb1Moves (m1 m2 m3 : List Int) : List Int :=
  let s1 := m1
  let m2' := m2.map (fun x => if x == 0 then x else x + maxIntL s1)
  let s2 := s1 ++ m2'
  let m3' := m3.map (fun x => if x == 0 then x else x + maxIntL s2)
  let s3 := s2 ++ m3'
  s3.map toInt8

/-- The same renumbering without the final `astype('int8')` cast: the
mathematically intended remapped labels. -/
def remapDb1Ideal (m1 m2 m3 : List Int) : List Int :=
  let s1 := m1
  let m2' := m2.map (fun x => if x == 0 then x else x + maxIntL s1)
  let s2 := s1 ++ m2'
  let m3' := m3.map (fun x => if x == 0 then x else x + maxIntL s2)
  s2 ++ m3'

/-- Training-row selection of `normalise_emg`: `train_targets`, refined by
the optional movement filter. -/
def fitTargets (reps trainReps : List Int) (movements whichMoves : Option (List Int)) :
    List Nat :=
  let t := getIdxs reps trainReps
  match movements, whichMoves with
  | some mv, some wm =>
    let mt := getIdxs (t.map (fun i => mv.getD i 0)) wm
    mt.map (fun k => t.getD k 0)
  | _, _ => t

/-- Column mean of the training-row matrix (`StandardScaler.fit`). -/
noncomputable def scalerMean (rows : List (List ℝ)) (j : Nat) : ℝ :=
  ((rows.map (fun r => r.getD j 0)).sum) / rows.length

/-- Column (population) variance of the training-row matrix. -/
noncomputable def scalerVar (rows : List (List ℝ)) (j : Nat) : ℝ :=
  ((rows.map (fun r => (r.getD j 0 - scalerMean rows j) ^ 2)).sum) / rows.length

/-- Column scale of `StandardScaler`: the standard deviation, with exact
zeros replaced by 1 (`_handle_zeros_in_scale`). -/
noncomputable def scalerScale (rows : List (List ℝ)) (j : Nat) : ℝ :=
  if Real.sqrt (scalerVar rows j) = 0 then 1 else Real.sqrt (scalerVar rows j)

/-- `normalise_emg(emg, reps, train_reps, movements, which_moves)`.  The
scaler is constructed with `copy=False`, so `transform(emg)` standardizes the
caller's float array in place and returns that same buffer.  The result pair
is (returned array, contents of the caller's `emg` buffer after the call);
the two components are the same list because of the in-place transform.  The
sample values are modelled as real numbers. -/
noncomputable def normaliseEmg (emg : List (List ℝ)) (reps trainReps : List Int)
    (movements whichMoves : Option (List Int)) : List (List ℝ) × List (List ℝ) :=
  let tr := (fitTargets reps trainReps movements whichMoves).map
    (fun i => emg.getD i [])
  let z := emg.map (fun row =>
    row.mapIdx (fun j x => (x - scalerMean tr j) / scalerScale tr j))
  (z, z)

/-- A ten-sample movement stream with two gesture bursts and no excessive
rest: transitions at indices 1, 3, 5, 7. -/
def mvSmall : List Int := [0, 0, 1, 1, 0, 0, 1, 1, 0, 0]

/-- A raw repetition stream for `mvSmall` with two distinct nonzero values. -/
def rwSmall : List Int := [0, 1, 1, 1, 0, 0, 2, 2, 2, 0]

/-- A 310-sample movement stream whose middle rest of 300 samples exceeds a
one-second cap at 100 Hz, so the segmenter truncates it. -/
def mvCap : List Int :=
  List.replicate 2 0 ++ List.replicate 3 1 ++ List.replicate 300 0 ++
  List.replicate 3 1 ++ List.replicate 2 0

/-- The label-and-counter invariant of the segmentation loop: the running
repetition index stays in `[1, max 1 nb_unique_reps]` and every written label
is zero or the int8 image of such an index. -/
def LabelInv (nbU : Int) (st : SegState) : Prop :=
  (1 ≤ st.curRep ∧ st.curRep ≤ max 1 nbU) ∧
  ∀ y ∈ st.rep, y = 0 ∨ ∃ c : Int, 1 ≤ c ∧ c ≤ max 1 nbU ∧ y = toInt8 c

/-- Well-formedness of a region boundary table: every row has
`start ≤ end`, and consecutive rows have strictly ascending starts with the
next start no earlier than the previous end. -/
def PairsOK (ps : List (Nat × Nat)) : Prop :=
  (∀ p ∈ ps, p.1 ≤ p.2) ∧ ps.Chain' (fun p q => p.1 < q.1 ∧ p.2 ≤ q.1)

/-- Contiguity of a region boundary table: each row starts right after the
previous one ends. -/
def Contig (ps : List (Nat × Nat)) : Prop :=
  ps.Chain' (fun p q => q.1 = p.2 + 1)

/-- The structural invariant of the segmentation loop after `k` iterations:
the flat region array holds `k` recorded well-ordered rows followed by
zeros, the cursor sits at or after the last recorded end (exactly one past
it while no truncation has happened), and the cursor never passes the next
transition. -/
def StructInv (mr : List Nat) (k : Nat) (st : SegState) : Prop :=
  ∃ ps : List (Nat × Nat),
    ps.length = k ∧
    st.regions = flatPairs ps ++ List.replicate (mr.length - 2 * k) 0 ∧
    PairsOK ps ∧
    (∀ pl, ps.getLast? = some pl →
      pl.2 ≤ st.lastEnd ∧ pl.1 < st.lastEnd ∧
      (st.nbCapped = 0 → st.lastEnd = pl.2 + 1)) ∧
    (st.nbCapped = 0 → Contig ps) ∧
    st.lastEnd ≤ mr.getD (2 * k + 1) 0

/-- The invariant of the balanced-split retry loop: the test table has one
row per fold, every already-accepted row is one of the enumerated
combinations, no repetition id occurs more than `nb_test` times among the
accepted rows, and the live pool only holds enumerated combinations. -/
def BalInv (allCombos : List (List Int)) (nbSplits nbTest : Nat)
    (st : BalSt) : Prop :=
  st.testReps.length = nbSplits ∧
  (∀ j, j < st.curSplit → j < nbSplits → st.testReps.getD j [] ∈ allCombos) ∧
  (∀ x : Int, ((st.testReps.take st.curSplit).flatten).count x ≤ nbTest) ∧
  st.pool ⊆ allCombos

/-!
Theorems.  Each claim of the specification is settled below; helper lemmas
precede the claim theorems they serve.
-/

/-- Claim C1 (counterexample): on a ten-sample stream with no truncation at
all (`nb_capped = 0`, no inter-block gap), the block lengths of the region
boundary table sum to 8, not to the signal length 10: the segmenter always
leaves the leading and trailing margins outside every block, so the sum can
fall short of `len(signal)` even with zero truncation gaps. -/
theorem segment_block_length_claim_false :
    segmentReps mvSmall rwSmall 999 100 =
      some ⟨[1, 1, 1, 1, 1, 2, 2, 2, 0, 0], [0, 4, 5, 7], 0⟩ ∧
    sumLenInt (toPairs [0, 4, 5, 7]) = 8 ∧
    adjGaps (toPairs [0, 4, 5, 7]) = 0 ∧
    mvSmall.length = 10 ∧ (8 : Int) ≠ 10 := by
  refine ⟨by decide, by decide, by decide, by decide, by decide⟩

set_option maxRecDepth 40000 in
/-- Claim C4 (counterexample): with a 1-second rest cap at 100 Hz, a
310-sample stream whose middle rest is 300 samples long produces the region
table rows (0, 103) and (204, 307): the rows are not contiguous (204 ≠ 104),
the truncated rest being left as an unassigned gap. -/
theorem segment_regions_contiguity_false :
    (segmentReps mvCap (List.replicate 310 0) 1 100).map SegOut.repRegions =
      some [0, 103, 204, 307] ∧
    toPairs [0, 103, 204, 307] = [(0, 103), (204, 307)] ∧
    (204 : Nat) ≠ 103 + 1 := by
  refine ⟨by decide, by decide, by decide⟩

/-- Claim C5 (counterexample): when the raw repetition stream contains no
nonzero value the cycle length is 0, yet the segmenter still assigns the
repetition index 1 to samples, exceeding the cycle length. -/
theorem segment_labels_cycle_claim_false :
    segmentReps mvSmall (List.replicate 10 0) 999 100 =
      some ⟨[1, 1, 1, 1, 1, 1, 1, 1, 0, 0], [0, 4, 5, 7], 0⟩ ∧
    cycleLength (List.replicate 10 0) = 0 ∧
    (1 : Int) ∈ [(1 : Int), 1, 1, 1, 1, 1, 1, 1, 0, 0] ∧
    ¬ ((1 : Int) ≤ (cycleLength (List.replicate 10 0) : Int)) := by
  refine ⟨by decide, by decide, by decide, by decide⟩

/-- Claim C7 (counterexample): with `rep_ids = [1]` and `nb_test = 1` we have
`nb_test ≥ len(rep_ids)`, yet `gen_split_balanced` returns a partition
(the single full-set combination is accepted for the single fold) instead of
failing. -/
theorem gen_split_balanced_returns_at_equal :
    genSplitBalanced [1] 1 none [0] = some ([[]], [[1]]) ∧
    ([1] : List Int).length ≤ 1 := by
  refine ⟨by decide, by decide⟩

/-- Claim C7 (amended): when `nb_test` strictly exceeds the number of
repetition ids, both split generators fail before producing anything — the
training table `np.zeros((nb_splits, nb_reps - nb_test))` already has a
negative dimension and raises — for every base and every random stream. -/
theorem split_generators_fail_when_nbtest_exceeds
    (repIds : List Int) (nbTest nbSplits : Nat) (base : Option (List Int))
    (randoms : List Nat) (h : repIds.length < nbTest) :
    genSplitBalanced repIds nbTest base randoms = none ∧
    genSplitRand repIds nbTest nbSplits base randoms = none := by
  constructor
  · simp only [genSplitBalanced, if_pos h]
  · simp only [genSplitRand, if_pos h]

/-- Witness for `split_generators_fail_when_nbtest_exceeds` at
`rep_ids = [1]`, `nb_test = 2`. -/
theorem split_generators_fail_when_nbtest_exceeds_witness :
    ([1] : List Int).length < 2 ∧
    (genSplitBalanced [1] 2 none [0] = none ∧
     genSplitRand [1] 2 1 none [0] = none) :=
  ⟨by decide, split_generators_fail_when_nbtest_exceeds [1] 2 1 none [0] (by decide)⟩

/-- Claim C8 (code bug): the remapped gesture id 128 overflows the signed
8-bit output type, and `import_db1`'s `move.astype('int8')` silently wraps it
to −128 instead of failing or clamping with a flag: on session streams
`[0, 100]`, `[0, 28]`, `[0, 0]` the intended remapped stream is
`[0, 100, 0, 128, 0, 0]` but the code produces `[0, 100, 0, -128, 0, 0]`
without any error. -/
theorem remap_int8_silent_wrap :
    remapDb1Ideal [0, 100] [0, 28] [0, 0] = [0, 100, 0, 128, 0, 0] ∧
    remapDb1Moves [0, 100] [0, 28] [0, 0] = [0, 100, 0, -128, 0, 0] ∧
    toInt8 128 = -128 ∧ ((-128 : Int) ≠ 128) := by
  refine ⟨by decide, by decide, by decide, by decide⟩

/-- Claim C6 (counterexample): with `which_reps = [2, 1]` on repetition
labels `[1, 1, 2, 2]` (window length 1, increment 1), the retained window end
positions come out as `[2, 3, 0, 1]` — grouped by the requested repetition
values, not in ascending end-position order — and `get_windows` returns the
windows in that grouped order. -/
theorem get_windows_order_claim_false :
    windowTargets 4 1 1 [1, 1, 2, 2] [1, 1, 1, 1] [2, 1] none = [2, 3, 0, 1] ∧
    getWindows [2, 1] 1 1 [[(10 : Int)], [20], [30], [40]] [1, 1, 1, 1]
        [1, 1, 2, 2] none =
      some ([[[30]], [[40]], [[10]], [[20]]], [1, 1, 1, 1], [2, 2, 1, 1]) ∧
    ¬ List.Pairwise (· < ·) [2, 3, 0, 1] := by
  refine ⟨by decide, by decide, by decide⟩

/-- One segmentation step preserves the parity of the truncation counter
(the capped branch adds exactly 2). -/
theorem segStep_nbCapped_mod (mr : List Nat) (capS : Nat) (nbU : Int) (i : Nat)
    (st : SegState) :
    (segStep mr capS nbU i st).nbCapped % 2 = st.nbCapped % 2 := by
  unfold segStep
  dsimp only
  split
  · rfl
  · dsimp only
    omega

/-- Any number of segmentation steps preserve the parity of the truncation
counter. -/
theorem segRun_nbCapped_mod (mr : List Nat) (capS : Nat) (nbU : Int) :
    ∀ (k : Nat) (st : SegState),
      (segRun mr capS nbU k st).nbCapped % 2 = st.nbCapped % 2
  | 0, _ => rfl
  | k + 1, st => by
    rw [segRun, segStep_nbCapped_mod, segRun_nbCapped_mod mr capS nbU k st]

/-- Claim C3: for every input and every rest-length cap, the truncation
counter returned by the repetition segmenter is even — it starts at 0 and
each over-cap rest event increments it by exactly 2. -/
theorem segment_nb_capped_even (move rawRep : List Int) (cap fs : Nat)
    (out : SegOut) (h : segmentReps move rawRep cap fs = some out) :
    out.nbCapped % 2 = 0 := by
  simp only [segmentReps] at h
  split at h
  · exact absurd h (by simp)
  · injection h with h'
    rw [← h']
    exact segRun_nbCapped_mod _ _ _ _ _

/-- Witness for `segment_nb_capped_even` on the concrete ten-sample input. -/
theorem segment_nb_capped_even_witness :
    segmentReps mvSmall rwSmall 999 100 =
      some ⟨[1, 1, 1, 1, 1, 2, 2, 2, 0, 0], [0, 4, 5, 7], 0⟩ ∧
    (SegOut.mk [1, 1, 1, 1, 1, 2, 2, 2, 0, 0] [0, 4, 5, 7] 0).nbCapped % 2 = 0 :=
  ⟨by decide, segment_nb_capped_even mvSmall rwSmall 999 100 _ (by decide)⟩

/-- The int8 wraparound lands in the signed 8-bit range. -/
theorem toInt8_bounds (x : Int) : -128 ≤ toInt8 x ∧ toInt8 x ≤ 127 := by
  unfold toInt8
  have h1 : 0 ≤ (x + 128) % 256 := Int.emod_nonneg _ (by norm_num)
  have h2 : (x + 128) % 256 < 256 := Int.emod_lt_of_pos _ (by norm_num)
  omega

/-- The int8 wraparound is the identity on the signed 8-bit range. -/
theorem toInt8_eq_self (x : Int) (h1 : -128 ≤ x) (h2 : x ≤ 127) :
    toInt8 x = x := by
  unfold toInt8
  rw [Int.emod_eq_of_lt (by omega) (by omega)]
  omega

/-- Every entry of a slice assignment is either an old entry or the written
value. -/
theorem setRange_mem (v : Int) :
    ∀ (l : List Int) (a b : Nat) (y : Int), y ∈ setRange l a b v →
      y ∈ l ∨ y = v
  | [], _, _, _, h => by simp [setRange] at h
  | x :: xs, a, b, y, h => by
    rw [setRange] at h
    rcases List.mem_cons.mp h with h1 | h1
    · split at h1
      · exact Or.inr h1
      · exact Or.inl (h1 ▸ List.mem_cons_self x xs)
    · rcases setRange_mem v xs (a - 1) (b - 1) y h1 with h2 | h2
      · exact Or.inl (List.mem_cons_of_mem x h2)
      · exact Or.inr h2

/-- The running repetition index after one step: incremented, wrapping to 1
past `nb_unique_reps`. -/
theorem segStep_curRep_eq (mr : List Nat) (capS : Nat) (nbU : Int) (i : Nat)
    (st : SegState) :
    (segStep mr capS nbU i st).curRep =
      if nbU < st.curRep + 1 then 1 else st.curRep + 1 := by
  unfold segStep
  dsimp only
  split <;> rfl

/-- The label stream after one step is a slice assignment of the previous
one with the int8 image of the running index. -/
theorem segStep_rep_cases (mr : List Nat) (capS : Nat) (nbU : Int) (i : Nat)
    (st : SegState) :
    (segStep mr capS nbU i st).rep =
      setRange st.rep st.lastEnd
        (rnd2 (mr.getD (2 * (i + 1) - 1) 0 + mr.getD (2 * (i + 1)) 0) + 1)
        (toInt8 st.curRep) ∨
    (segStep mr capS nbU i st).rep =
      setRange st.rep st.lastEnd (mr.getD (2 * (i + 1) - 1) 0 + capS)
        (toInt8 st.curRep) := by
  unfold segStep
  dsimp only
  split
  · exact Or.inl rfl
  · exact Or.inr rfl

/-- One segmentation step preserves the label invariant. -/
theorem segStep_labelInv (mr : List Nat) (capS : Nat) (nbU : Int) (i : Nat)
    (st : SegState) (h : LabelInv nbU st) :
    LabelInv nbU (segStep mr capS nbU i st) := by
  obtain ⟨⟨hc1, hc2⟩, hrep⟩ := h
  constructor
  · rw [segStep_curRep_eq]
    split
    · exact ⟨le_refl 1, le_max_left 1 nbU⟩
    · rename_i hge
      exact ⟨by omega, le_trans (by omega) (le_max_right 1 nbU)⟩
  · intro y hy
    have hmem : y ∈ st.rep ∨ y = toInt8 st.curRep := by
      rcases segStep_rep_cases mr capS nbU i st with he | he <;>
        · rw [he] at hy
          exact setRange_mem _ _ _ _ _ hy
    rcases hmem with h1 | h1
    · exact hrep y h1
    · exact Or.inr ⟨st.curRep, hc1, hc2, h1⟩

/-- Any number of segmentation steps preserve the label invariant. -/
theorem segRun_labelInv (mr : List Nat) (capS : Nat) (nbU : Int) :
    ∀ (k : Nat) (st : SegState), LabelInv nbU st →
      LabelInv nbU (segRun mr capS nbU k st)
  | 0, _, h => h
  | k + 1, st, h =>
    segStep_labelInv mr capS nbU k _ (segRun_labelInv mr capS nbU k st h)

/-- The wrap bound `max 1 (nb_unique_reps)` used by the loop never exceeds
the number of distinct nonzero raw repetition values, provided at least one
nonzero value is present. -/
theorem maxU_le_cycle (rawRep : List Int) (hnz : ∃ x ∈ rawRep, x ≠ 0) :
    max 1 ((rawRep.dedup.length : Int) - 1) ≤ (cycleLength rawRep : Int) := by
  obtain ⟨x, hx, hx0⟩ := hnz
  have hcyc1 : 1 ≤ cycleLength rawRep := by
    have hmem : x ∈ rawRep.filter (fun z => !(z == 0)) := by
      rw [List.mem_filter]
      exact ⟨hx, by simpa using hx0⟩
    have : x ∈ (rawRep.filter (fun z => !(z == 0))).dedup := List.mem_dedup.mpr hmem
    have := List.length_pos.mpr (List.ne_nil_of_mem this)
    unfold cycleLength
    omega
  have hD : rawRep.dedup.length ≤ cycleLength rawRep + 1 := by
    classical
    have hcard : rawRep.dedup.length = rawRep.toFinset.card :=
      (List.card_toFinset rawRep).symm
    have hcyc : cycleLength rawRep =
        (rawRep.toFinset.filter (fun z => z ≠ 0)).card := by
      unfold cycleLength
      rw [← List.card_toFinset, List.toFinset_filter]
      congr 1
      apply Finset.filter_congr
      intro z _
      simp
    have hsplit : rawRep.toFinset.card =
        (rawRep.toFinset.filter (fun z => z ≠ 0)).card +
        (rawRep.toFinset.filter (fun z => ¬ z ≠ 0)).card :=
      (Finset.filter_card_add_filter_neg_card_eq_card _).symm
    have hzero : (rawRep.toFinset.filter (fun z => ¬ z ≠ 0)).card ≤ 1 := by
      have hsub : rawRep.toFinset.filter (fun z => ¬ z ≠ 0) ⊆ {0} := by
        intro z hz
        rw [Finset.mem_filter] at hz
        simp only [Finset.mem_singleton]
        omega
      simpa using Finset.card_le_card hsub
    omega
  have h1 : (1 : Int) ≤ (cycleLength rawRep : Int) := by exact_mod_cast hcyc1
  have h2 : (rawRep.dedup.length : Int) - 1 ≤ (cycleLength rawRep : Int) := by
    have : (rawRep.dedup.length : Int) ≤ (cycleLength rawRep : Int) + 1 := by
      exact_mod_cast hD
    omega
  exact max_le h1 h2

/-- Claim C5 (amended): as long as the raw repetition stream contains at
least one nonzero value, no sample of the derived repetition label stream
carries an index greater than the cycle length (the number of distinct
nonzero raw repetition values); with no nonzero value present the cycle
length is 0 yet the segmenter assigns index 1
(`segment_labels_cycle_claim_false`). -/
theorem segment_labels_le_cycle (move rawRep : List Int) (cap fs : Nat)
    (out : SegOut) (h : segmentReps move rawRep cap fs = some out)
    (hnz : ∃ x ∈ rawRep, x ≠ 0) :
    ∀ v ∈ out.rep, v ≤ (cycleLength rawRep : Int) := by
  simp only [segmentReps] at h
  split at h
  · exact absurd h (by simp)
  · injection h with h'
    have hinv0 : LabelInv ((rawRep.dedup.length : Int) - 1)
        (⟨List.replicate rawRep.length 0, List.replicate (moveRegions move).length 0,
          rnd2 ((moveRegions move).getD 0 0), 1, 0⟩ : SegState) := by
      constructor
      · exact ⟨le_refl 1, le_max_left 1 _⟩
      · intro y hy
        exact Or.inl (List.eq_of_mem_replicate hy)
    have hinv := segRun_labelInv (moveRegions move) (cap * fs)
      ((rawRep.dedup.length : Int) - 1) (rnd2 (moveRegions move).length - 1) _ hinv0
    obtain ⟨⟨hc1, hc2⟩, hrep⟩ := hinv
    have hmax := maxU_le_cycle rawRep hnz
    intro v hv
    rw [← h'] at hv
    have hv' := setRange_mem _ _ _ _ _ hv
    have hbound : ∀ c : Int, 1 ≤ c → c ≤ max 1 ((rawRep.dedup.length : Int) - 1) →
        toInt8 c ≤ (cycleLength rawRep : Int) := by
      intro c h1c h2c
      have hcC : c ≤ (cycleLength rawRep : Int) := le_trans h2c hmax
      by_cases hsmall : c ≤ 127
      · rw [toInt8_eq_self c (by omega) hsmall]
        exact hcC
      · have := (toInt8_bounds c).2
        omega
    rcases hv' with h1 | h1
    · rcases hrep v h1 with h2 | ⟨c, hc, hcu, rfl⟩
      · simp [h2]
      · exact hbound c hc hcu
    · rw [h1]
      exact hbound _ hc1 hc2

/-- Witness for `segment_labels_le_cycle` on the concrete ten-sample input
with two distinct nonzero raw repetition values. -/
theorem segment_labels_le_cycle_witness :
    segmentReps mvSmall rwSmall 999 100 =
      some ⟨[1, 1, 1, 1, 1, 2, 2, 2, 0, 0], [0, 4, 5, 7], 0⟩ ∧
    (∃ x ∈ rwSmall, x ≠ 0) ∧
    ∀ v ∈ [(1 : Int), 1, 1, 1, 1, 2, 2, 2, 0, 0],
      v ≤ (cycleLength rwSmall : Int) :=
  ⟨by decide, by decide,
   segment_labels_le_cycle mvSmall rwSmall 999 100
     ⟨[1, 1, 1, 1, 1, 2, 2, 2, 0, 0], [0, 4, 5, 7], 0⟩ (by decide) (by decide)⟩

/-- Banker's rounding of `s / 2` is at least the floor. -/
theorem rnd2_ge (s : Nat) : s / 2 ≤ rnd2 s := by
  unfold rnd2
  split
  · exact le_refl _
  · split <;> omega

/-- Banker's rounding of `s / 2` is at most the ceiling. -/
theorem rnd2_le (s : Nat) : rnd2 s ≤ (s + 1) / 2 := by
  unfold rnd2
  split
  · omega
  · split <;> omega

/-- On even input banker's rounding of `s / 2` is exact. -/
theorem rnd2_even (s : Nat) (h : s % 2 = 0) : rnd2 s = s / 2 := by
  unfold rnd2
  rw [if_pos h]

/-- The transition indices are strictly increasing. -/
theorem moveRegions_pairwise (move : List Int) :
    (moveRegions move).Pairwise (· < ·) :=
  List.Pairwise.filter _ (List.pairwise_lt_range _)

/-- Every transition index leaves at least two samples up to the stream
end. -/
theorem moveRegions_lt_len (move : List Int) :
    ∀ x ∈ moveRegions move, x + 2 ≤ move.length := by
  intro x hx
  have hx' := (List.mem_filter.mp hx).1
  rw [List.mem_range] at hx'
  omega

/-- Indexing a strictly increasing list of naturals is strictly monotone. -/
theorem getD_lt_getD_of_pairwise {l : List Nat} (h : l.Pairwise (· < ·))
    {i j : Nat} (hij : i < j) (hj : j < l.length) :
    l.getD i 0 < l.getD j 0 := by
  rw [List.getD_eq_getElem l 0 (lt_trans hij hj), List.getD_eq_getElem l 0 hj]
  exact List.pairwise_iff_getElem.mp h i j _ _ hij

/-- A defaulted in-bounds lookup is a member. -/
theorem getD_mem_of_lt {α : Type} {l : List α} {d : α} {i : Nat}
    (h : i < l.length) : l.getD i d ∈ l := by
  rw [List.getD_eq_getElem l d h]
  exact List.getElem_mem h

/-- Flattened pairs have twice as many entries. -/
theorem flatPairs_length : ∀ ps : List (Nat × Nat),
    (flatPairs ps).length = 2 * ps.length
  | [] => rfl
  | p :: ps => by
    rw [flatPairs, List.length_cons, List.length_cons, flatPairs_length ps,
      List.length_cons]
    ring

/-- Flattening distributes over append. -/
theorem flatPairs_append : ∀ ps qs : List (Nat × Nat),
    flatPairs (ps ++ qs) = flatPairs ps ++ flatPairs qs
  | [], _ => rfl
  | p :: ps, qs => by
    rw [List.cons_append, flatPairs, flatPairs, flatPairs_append ps qs,
      List.cons_append, List.cons_append]

/-- Pair flattening round-trips through `toPairs`. -/
theorem toPairs_flatPairs : ∀ ps : List (Nat × Nat),
    toPairs (flatPairs ps) = ps
  | [] => rfl
  | p :: ps => by
    rw [flatPairs, toPairs, toPairs_flatPairs ps]

/-- Writing a new (start, end) pair into the zero-padded flat region array at
the next free slot appends it to the recorded pairs. -/
theorem regions_set_pair (ps : List (Nat × Nat)) (k : Nat) (s e : Nat)
    (hk : 2 ≤ k) :
    ((flatPairs ps ++ List.replicate k 0).set (2 * ps.length) s).set
      (2 * ps.length + 1) e
    = flatPairs (ps ++ [(s, e)]) ++ List.replicate (k - 2) 0 := by
  obtain ⟨k', rfl⟩ : ∃ k', k = k' + 2 := ⟨k - 2, by omega⟩
  have hlen := flatPairs_length ps
  rw [List.set_append, if_neg (by omega)]
  rw [List.set_append, if_neg (by omega)]
  rw [hlen]
  have h0 : 2 * ps.length - 2 * ps.length = 0 := by omega
  have h1 : 2 * ps.length + 1 - 2 * ps.length = 1 := by omega
  rw [h0, h1]
  rw [show k' + 2 = (k' + 1) + 1 from rfl, List.replicate_succ,
    List.replicate_succ, List.set_cons_zero, List.set_cons_succ,
    List.set_cons_zero, flatPairs_append, List.append_assoc]
  rfl

/-- The last element of a list extended by one entry. -/
theorem getLastD_concat (p d : Nat × Nat) : ∀ ps : List (Nat × Nat),
    (ps ++ [p]).getLastD d = p
  | [] => rfl
  | q :: ps => by
    rw [List.cons_append, List.getLastD_cons, getLastD_concat p q ps]

/-- Telescoping identity: block lengths plus signed inter-block gaps add up
to the span from the first start to the last end, for any region table. -/
theorem sumLen_adjGaps_telescope : ∀ (p : Nat × Nat) (ps : List (Nat × Nat)),
    sumLenInt (p :: ps) + adjGaps (p :: ps)
      = (((p :: ps).getLastD (0, 0)).2 : Int) - (p.1 : Int) + 1
  | p, [] => by
    simp [sumLenInt, adjGaps, List.getLastD_cons]
  | p, q :: ps => by
    have ih := sumLen_adjGaps_telescope q ps
    rw [List.getLastD_cons, List.getLastD_cons] at *
    rw [sumLenInt, List.map_cons, List.sum_cons, adjGaps]
    rw [sumLenInt] at ih
    omega

/-- A contiguous region table has zero total inter-block gap. -/
theorem adjGaps_eq_zero_of_contig : ∀ ps : List (Nat × Nat),
    Contig ps → adjGaps ps = 0
  | [] , _ => rfl
  | [_], _ => rfl
  | p :: q :: ps, h => by
    rw [Contig, List.chain'_cons] at h
    rw [adjGaps, adjGaps_eq_zero_of_contig (q :: ps) h.2]
    omega

/-- Explicit branch form of one segmentation step. -/
theorem segStep_eq (mr : List Nat) (capS : Nat) (nbU : Int) (k : Nat)
    (st : SegState) :
    segStep mr capS nbU k st =
      if rnd2 (mr.getD (2 * (k + 1) - 1) 0 + mr.getD (2 * (k + 1)) 0) + 1
          - mr.getD (2 * (k + 1) - 1) 0 ≤ capS then
        ⟨setRange st.rep st.lastEnd
           (rnd2 (mr.getD (2 * (k + 1) - 1) 0 + mr.getD (2 * (k + 1)) 0) + 1)
           (toInt8 st.curRep),
         (st.regions.set (2 * k) st.lastEnd).set (2 * k + 1)
           (rnd2 (mr.getD (2 * (k + 1) - 1) 0 + mr.getD (2 * (k + 1)) 0) + 1 - 1),
         rnd2 (mr.getD (2 * (k + 1) - 1) 0 + mr.getD (2 * (k + 1)) 0) + 1,
         if nbU < st.curRep + 1 then 1 else st.curRep + 1, st.nbCapped⟩
      else
        ⟨setRange st.rep st.lastEnd (mr.getD (2 * (k + 1) - 1) 0 + capS)
           (toInt8 st.curRep),
         (st.regions.set (2 * k) st.lastEnd).set (2 * k + 1)
           (mr.getD (2 * (k + 1) - 1) 0 + capS - 1),
         mr.getD (2 * (k + 1)) 0 - capS,
         if nbU < st.curRep + 1 then 1 else st.curRep + 1, st.nbCapped + 2⟩ := by
  unfold segStep
  dsimp only
  split <;> rfl

/-- One segmentation step preserves the structural invariant (for a cap of
at least two samples, strictly sorted transition indices, and indices in
range). -/
theorem segStep_structInv (mr : List Nat) (capS : Nat) (nbU : Int) (k : Nat)
    (st : SegState)
    (hsort : mr.Pairwise (· < ·))
    (hcap : 2 ≤ capS)
    (hk : 2 * k + 3 < mr.length)
    (hinv : StructInv mr k st) :
    StructInv mr (k + 1) (segStep mr capS nbU k st) := by
  obtain ⟨ps, hlen, hreg, ⟨hmem, hchain⟩, hlast, hcontig, hle⟩ := hinv
  have hidx1 : 2 * (k + 1) - 1 = 2 * k + 1 := by omega
  have hab : mr.getD (2 * (k + 1) - 1) 0 < mr.getD (2 * (k + 1)) 0 := by
    rw [hidx1]
    exact getD_lt_getD_of_pairwise hsort (by omega) (by omega)
  have hbb' : mr.getD (2 * (k + 1)) 0 < mr.getD (2 * (k + 1) + 1) 0 :=
    getD_lt_getD_of_pairwise hsort (by omega) (by omega)
  have hle' : st.lastEnd ≤ mr.getD (2 * (k + 1) - 1) 0 := by rw [hidx1]; exact hle
  set a := mr.getD (2 * (k + 1) - 1) 0 with ha
  set b := mr.getD (2 * (k + 1)) 0 with hb
  have hge := rnd2_ge (a + b)
  have hle2 := rnd2_le (a + b)
  rw [segStep_eq, ← ha, ← hb]
  split
  · rename_i hbr
    unfold StructInv
    refine ⟨ps ++ [(st.lastEnd, rnd2 (a + b) + 1 - 1)], ?_, ?_, ⟨?_, ?_⟩, ?_, ?_, ?_⟩
    · simp [hlen]
    · show (st.regions.set (2 * k) st.lastEnd).set (2 * k + 1) _ = _
      rw [hreg, show 2 * k = 2 * ps.length from by omega,
        regions_set_pair ps (mr.length - 2 * ps.length) _ _ (by omega),
        show mr.length - 2 * ps.length - 2 = mr.length - 2 * (k + 1) from by omega]
    · intro p hp
      rcases List.mem_append.mp hp with h1 | h1
      · exact hmem p h1
      · rw [List.mem_singleton.mp h1]
        show st.lastEnd ≤ rnd2 (a + b) + 1 - 1
        omega
    · rw [List.chain'_append]
      refine ⟨hchain, List.chain'_singleton _, ?_⟩
      intro x hx y hy
      rw [List.head?_cons, Option.mem_some_iff] at hy
      obtain ⟨hx2, hx1, _⟩ := hlast x hx
      rw [← hy]
      exact ⟨hx1, hx2⟩
    · intro pl hpl
      rw [List.getLast?_concat] at hpl
      obtain rfl := Option.some.inj hpl
      refine ⟨?_, ?_, ?_⟩
      · show rnd2 (a + b) + 1 - 1 ≤ rnd2 (a + b) + 1
        omega
      · show st.lastEnd < rnd2 (a + b) + 1
        omega
      · intro _
        show rnd2 (a + b) + 1 = rnd2 (a + b) + 1 - 1 + 1
        omega
    · intro h0
      rw [Contig, List.chain'_append]
      refine ⟨hcontig h0, List.chain'_singleton _, ?_⟩
      intro x hx y hy
      rw [List.head?_cons, Option.mem_some_iff] at hy
      obtain ⟨_, _, hcg⟩ := hlast x hx
      rw [← hy]
      show st.lastEnd = x.2 + 1
      exact hcg h0
    · show rnd2 (a + b) + 1 ≤ mr.getD (2 * (k + 1) + 1) 0
      omega
  · rename_i hbr
    unfold StructInv
    have hbr' : capS + a ≤ rnd2 (a + b) := by omega
    have hb2 : a + 2 * capS - 1 ≤ b := by omega
    refine ⟨ps ++ [(st.lastEnd, a + capS - 1)], ?_, ?_, ⟨?_, ?_⟩, ?_, ?_, ?_⟩
    · simp [hlen]
    · show (st.regions.set (2 * k) st.lastEnd).set (2 * k + 1) _ = _
      rw [hreg, show 2 * k = 2 * ps.length from by omega,
        regions_set_pair ps (mr.length - 2 * ps.length) _ _ (by omega),
        show mr.length - 2 * ps.length - 2 = mr.length - 2 * (k + 1) from by omega]
    · intro p hp
      rcases List.mem_append.mp hp with h1 | h1
      · exact hmem p h1
      · rw [List.mem_singleton.mp h1]
        show st.lastEnd ≤ a + capS - 1
        omega
    · rw [List.chain'_append]
      refine ⟨hchain, List.chain'_singleton _, ?_⟩
      intro x hx y hy
      rw [List.head?_cons, Option.mem_some_iff] at hy
      obtain ⟨hx2, hx1, _⟩ := hlast x hx
      rw [← hy]
      exact ⟨hx1, hx2⟩
    · intro pl hpl
      rw [List.getLast?_concat] at hpl
      obtain rfl := Option.some.inj hpl
      refine ⟨?_, ?_, ?_⟩
      · show a + capS - 1 ≤ b - capS
        omega
      · show st.lastEnd < b - capS
        omega
      · intro habs
        exact absurd (show st.nbCapped + 2 = 0 from habs) (by omega)
    · intro habs
      exact absurd (show st.nbCapped + 2 = 0 from habs) (by omega)
    · show b - capS ≤ mr.getD (2 * (k + 1) + 1) 0
      omega

/-- The structural invariant holds after any prefix of the segmentation
loop. -/
theorem segRun_structInv (mr : List Nat) (capS : Nat) (nbU : Int)
    (hsort : mr.Pairwise (· < ·)) (hcap : 2 ≤ capS) :
    ∀ (k : Nat) (st : SegState), 2 * k + 1 < mr.length → StructInv mr 0 st →
      StructInv mr k (segRun mr capS nbU k st)
  | 0, _, _, h0 => h0
  | k + 1, st, hk, h0 =>
    segStep_structInv mr capS nbU k _ hsort hcap (by omega)
      (segRun_structInv mr capS nbU hsort hcap k st (by omega) h0)


/-- Structure of the final region boundary table: on a movement stream with
an even number of transitions and a cap of at least two samples, the table
is a nonempty list of well-ordered rows, contiguous when nothing was capped,
whose final end leaves at least one trailing sample before the stream
end. -/
theorem segment_final_struct (move rawRep : List Int) (cap fs : Nat)
    (out : SegOut) (h : segmentReps move rawRep cap fs = some out)
    (heven : (moveRegions move).length % 2 = 0) (hcap : 2 ≤ cap * fs) :
    ∃ ps : List (Nat × Nat),
      toPairs out.repRegions = ps ∧ ps ≠ [] ∧ PairsOK ps ∧
      (out.nbCapped = 0 → Contig ps) ∧
      (ps.getLastD (0, 0)).2 + 2 ≤ move.length := by
  simp only [segmentReps] at h
  split at h
  · exact absurd h (by simp)
  · rename_i hlen2
    have hT2 : 2 ≤ (moveRegions move).length := by omega
    have hsort := moveRegions_pairwise move
    have hmT : rnd2 (moveRegions move).length = (moveRegions move).length / 2 :=
      rnd2_even _ heven
    have h01 : (moveRegions move).getD 0 0 < (moveRegions move).getD 1 0 :=
      getD_lt_getD_of_pairwise hsort (by omega) (by omega)
    have hr0 := rnd2_le ((moveRegions move).getD 0 0)
    have h0 : StructInv (moveRegions move) 0
        ⟨List.replicate rawRep.length 0,
         List.replicate (moveRegions move).length 0,
         rnd2 ((moveRegions move).getD 0 0), 1, 0⟩ := by
      refine ⟨[], rfl, by simp [flatPairs], ⟨by simp, List.chain'_nil⟩,
        by simp, fun _ => List.chain'_nil, ?_⟩
      show rnd2 ((moveRegions move).getD 0 0) ≤
        (moveRegions move).getD (2 * 0 + 1) 0
      rw [show (2 * 0 + 1 : Nat) = 1 from rfl]
      omega
    have hinv := segRun_structInv (moveRegions move) (cap * fs)
      ((rawRep.dedup.length : Int) - 1) hsort hcap
      (rnd2 (moveRegions move).length - 1)
      ⟨List.replicate rawRep.length 0,
       List.replicate (moveRegions move).length 0,
       rnd2 ((moveRegions move).getD 0 0), 1, 0⟩ (by omega) h0
    obtain ⟨ps, hlen, hreg, ⟨hmem, hchain⟩, hlast, hcontig, hle⟩ := hinv
    have hidx : 2 * (rnd2 (moveRegions move).length - 1) + 1 =
        (moveRegions move).length - 1 := by omega
    rw [hidx] at hle
    have hc2 : (moveRegions move).getD ((moveRegions move).length - 1) 0 + 2 ≤
        move.length :=
      moveRegions_lt_len move _ (getD_mem_of_lt (by omega))
    have hei_ge := rnd2_ge
      (move.length + (moveRegions move).getD ((moveRegions move).length - 1) 0)
    have hei_le := rnd2_le
      (move.length + (moveRegions move).getD ((moveRegions move).length - 1) 0)
    injection h with h'
    refine ⟨ps ++ [((segRun (moveRegions move) (cap * fs)
        ((rawRep.dedup.length : Int) - 1) (rnd2 (moveRegions move).length - 1)
        ⟨List.replicate rawRep.length 0,
         List.replicate (moveRegions move).length 0,
         rnd2 ((moveRegions move).getD 0 0), 1, 0⟩).lastEnd,
      rnd2 (move.length +
        (moveRegions move).getD ((moveRegions move).length - 1) 0) - 1)],
      ?_, by simp, ⟨?_, ?_⟩, ?_, ?_⟩
    · rw [← h']
      show toPairs (((segRun (moveRegions move) (cap * fs)
          ((rawRep.dedup.length : Int) - 1)
          (rnd2 (moveRegions move).length - 1)
          ⟨List.replicate rawRep.length 0,
           List.replicate (moveRegions move).length 0,
           rnd2 ((moveRegions move).getD 0 0), 1, 0⟩).regions.set
            ((moveRegions move).length - 2) _).set
            ((moveRegions move).length - 1) _) = _
      rw [hreg]
      rw [show (moveRegions move).length -
        2 * (rnd2 (moveRegions move).length - 1) = 2 from by omega]
      rw [show (moveRegions move).length - 2 = 2 * ps.length from by omega,
        show (moveRegions move).length - 1 = 2 * ps.length + 1 from by omega,
        regions_set_pair ps 2 _ _ (le_refl 2)]
      simp [toPairs_flatPairs]
    · intro p hp
      rcases List.mem_append.mp hp with h1 | h1
      · exact hmem p h1
      · rw [List.mem_singleton.mp h1]
        show (segRun (moveRegions move) (cap * fs)
            ((rawRep.dedup.length : Int) - 1)
            (rnd2 (moveRegions move).length - 1)
            ⟨List.replicate rawRep.length 0,
             List.replicate (moveRegions move).length 0,
             rnd2 ((moveRegions move).getD 0 0), 1, 0⟩).lastEnd ≤
          rnd2 (move.length +
            (moveRegions move).getD ((moveRegions move).length - 1) 0) - 1
        omega
    · rw [List.chain'_append]
      refine ⟨hchain, List.chain'_singleton _, ?_⟩
      intro x hx y hy
      rw [List.head?_cons, Option.mem_some_iff] at hy
      obtain ⟨hx2, hx1, _⟩ := hlast x hx
      rw [← hy]
      exact ⟨hx1, hx2⟩
    · rw [← h']
      intro h0
      rw [Contig, List.chain'_append]
      refine ⟨hcontig h0, List.chain'_singleton _, ?_⟩
      intro x hx y hy
      rw [List.head?_cons, Option.mem_some_iff] at hy
      obtain ⟨_, _, hcg⟩ := hlast x hx
      rw [← hy]
      show (segRun (moveRegions move) (cap * fs)
          ((rawRep.dedup.length : Int) - 1)
          (rnd2 (moveRegions move).length - 1)
          ⟨List.replicate rawRep.length 0,
           List.replicate (moveRegions move).length 0,
           rnd2 ((moveRegions move).getD 0 0), 1, 0⟩).lastEnd = x.2 + 1
      exact hcg h0
    · rw [getLastD_concat]
      show rnd2 (move.length +
        (moveRegions move).getD ((moveRegions move).length - 1) 0) - 1 + 2 ≤
        move.length
      omega

/-- Claim C4 (amended): for every valid input (even transition count, rest
cap of at least two samples), the region boundary table rows satisfy
`start ≤ end`, are in strictly ascending start order with each row ending no
later than the next row starts, and are contiguous whenever no rest-cap
truncation occurred; a truncated rest leaves a gap between consecutive rows
(`segment_regions_contiguity_false`). -/
theorem segment_regions_ordered (move rawRep : List Int) (cap fs : Nat)
    (out : SegOut) (h : segmentReps move rawRep cap fs = some out)
    (heven : (moveRegions move).length % 2 = 0) (hcap : 2 ≤ cap * fs) :
    (∀ p ∈ toPairs out.repRegions, p.1 ≤ p.2) ∧
    (toPairs out.repRegions).Chain' (fun p q => p.1 < q.1 ∧ p.2 ≤ q.1) ∧
    (out.nbCapped = 0 →
      (toPairs out.repRegions).Chain' (fun p q => q.1 = p.2 + 1)) := by
  obtain ⟨ps, hps, _, ⟨hm, hc⟩, hcg, _⟩ :=
    segment_final_struct move rawRep cap fs out h heven hcap
  rw [hps]
  exact ⟨hm, hc, hcg⟩

/-- Witness for `segment_regions_ordered` on the concrete ten-sample
input. -/
theorem segment_regions_ordered_witness :
    (segmentReps mvSmall rwSmall 999 100 =
      some ⟨[1, 1, 1, 1, 1, 2, 2, 2, 0, 0], [0, 4, 5, 7], 0⟩ ∧
     (moveRegions mvSmall).length % 2 = 0 ∧ 2 ≤ 999 * 100) ∧
    ((∀ p ∈ toPairs [0, 4, 5, 7], p.1 ≤ p.2) ∧
     (toPairs [0, 4, 5, 7]).Chain' (fun p q => p.1 < q.1 ∧ p.2 ≤ q.1) ∧
     ((SegOut.mk [1, 1, 1, 1, 1, 2, 2, 2, 0, 0] [0, 4, 5, 7] 0).nbCapped = 0 →
      (toPairs [0, 4, 5, 7]).Chain' (fun p q => q.1 = p.2 + 1))) :=
  ⟨⟨by decide, by decide, by decide⟩,
   segment_regions_ordered mvSmall rwSmall 999 100
     ⟨[1, 1, 1, 1, 1, 2, 2, 2, 0, 0], [0, 4, 5, 7], 0⟩
     (by decide) (by decide) (by decide)⟩

/-- Claim C1 (amended): for every valid input (even transition count, rest
cap of at least two samples), the block lengths of the region boundary
table, the signed inter-block gaps, the leading margin before the first
block and the trailing margin after the last block add up exactly to the
signal length; the trailing margin is never negative, and with no rest-cap
truncation the gap term is zero — so the sum of block lengths equals the
signal length minus the two margins, not the signal length itself
(`segment_block_length_claim_false`). -/
theorem segment_block_length_accounting (move rawRep : List Int)
    (cap fs : Nat) (out : SegOut)
    (h : segmentReps move rawRep cap fs = some out)
    (heven : (moveRegions move).length % 2 = 0) (hcap : 2 ≤ cap * fs) :
    toPairs out.repRegions ≠ [] ∧
    sumLenInt (toPairs out.repRegions) + adjGaps (toPairs out.repRegions) +
      (((toPairs out.repRegions).headD (0, 0)).1 : Int) +
      ((move.length : Int) - 1 -
        (((toPairs out.repRegions).getLastD (0, 0)).2 : Int))
      = (move.length : Int) ∧
    0 ≤ (move.length : Int) - 1 -
      (((toPairs out.repRegions).getLastD (0, 0)).2 : Int) ∧
    (out.nbCapped = 0 → adjGaps (toPairs out.repRegions) = 0) := by
  obtain ⟨ps, hps, hne, _, hcg, hlastb⟩ :=
    segment_final_struct move rawRep cap fs out h heven hcap
  rw [hps]
  obtain ⟨p, rest, rfl⟩ : ∃ p rest, ps = p :: rest := by
    cases ps with
    | nil => exact absurd rfl hne
    | cons p rest => exact ⟨p, rest, rfl⟩
  have htel := sumLen_adjGaps_telescope p rest
  refine ⟨by simp, ?_, ?_, fun h0 => adjGaps_eq_zero_of_contig _ (hcg h0)⟩
  · rw [List.headD_cons]
    omega
  · omega

/-- Witness for `segment_block_length_accounting` on the concrete ten-sample
input: 8 + 0 + 0 + 2 = 10. -/
theorem segment_block_length_accounting_witness :
    (segmentReps mvSmall rwSmall 999 100 =
      some ⟨[1, 1, 1, 1, 1, 2, 2, 2, 0, 0], [0, 4, 5, 7], 0⟩ ∧
     (moveRegions mvSmall).length % 2 = 0 ∧ 2 ≤ 999 * 100) ∧
    (toPairs [0, 4, 5, 7] ≠ [] ∧
     sumLenInt (toPairs [0, 4, 5, 7]) + adjGaps (toPairs [0, 4, 5, 7]) +
       (((toPairs [0, 4, 5, 7]).headD (0, 0)).1 : Int) +
       ((mvSmall.length : Int) - 1 -
         (((toPairs [0, 4, 5, 7]).getLastD (0, 0)).2 : Int))
       = (mvSmall.length : Int) ∧
     0 ≤ (mvSmall.length : Int) - 1 -
       (((toPairs [0, 4, 5, 7]).getLastD (0, 0)).2 : Int) ∧
     ((SegOut.mk [1, 1, 1, 1, 1, 2, 2, 2, 0, 0] [0, 4, 5, 7] 0).nbCapped = 0 →
      adjGaps (toPairs [0, 4, 5, 7]) = 0)) :=
  ⟨⟨by decide, by decide, by decide⟩,
   segment_block_length_accounting mvSmall rwSmall 999 100
     ⟨[1, 1, 1, 1, 1, 2, 2, 2, 0, 0], [0, 4, 5, 7], 0⟩
     (by decide) (by decide) (by decide)⟩

/-- Inserting into a sorted list permutes consing. -/
theorem insertSorted_perm (x : Int) : ∀ l : List Int,
    (insertSorted x l).Perm (x :: l)
  | [] => List.Perm.refl _
  | y :: ys => by
    rw [insertSorted]
    split
    · exact List.Perm.refl _
    · exact ((insertSorted_perm x ys).cons y).trans (List.Perm.swap x y ys)

/-- Insertion sort permutes its input. -/
theorem sortInts_perm : ∀ l : List Int, (sortInts l).Perm l
  | [] => List.Perm.refl _
  | x :: xs =>
    (insertSorted_perm x (sortInts xs)).trans ((sortInts_perm xs).cons x)

/-- Summing an equality indicator counts occurrences. -/
theorem sum_map_indicator (x : Int) : ∀ l : List Int,
    (l.map (fun v => if x = v then 1 else 0)).sum = l.count x
  | [] => rfl
  | v :: l => by
    rw [List.map_cons, List.sum_cons, sum_map_indicator x l, List.count_cons]
    by_cases h : x = v
    · simp [h, Nat.add_comm]
    · simp [h, Ne.symm h]

/-- Occurrence count of a position in the index-lookup output: the number of
times the value at that position is requested. -/
theorem getIdxs_count (inArr toFind : List Int) (i : Nat) :
    (getIdxs inArr toFind).count i =
      if i < inArr.length then toFind.count (inArr.getD i 0) else 0 := by
  unfold getIdxs
  rw [List.count_flatten, List.map_map]
  have hterm : ∀ x : Int,
      ((List.range inArr.length).filter
        (fun j => inArr.getD j 0 == x)).count i =
      if i < inArr.length ∧ inArr.getD i 0 = x then 1 else 0 := by
    intro x
    have hnd : ((List.range inArr.length).filter
        (fun j => inArr.getD j 0 == x)).Nodup :=
      (List.nodup_range _).filter _
    have hmem : i ∈ (List.range inArr.length).filter
        (fun j => inArr.getD j 0 == x) ↔
        i < inArr.length ∧ inArr.getD i 0 = x := by
      rw [List.mem_filter, List.mem_range, beq_iff_eq]
    by_cases hin : i < inArr.length ∧ inArr.getD i 0 = x
    · rw [if_pos hin]
      exact List.count_eq_one_of_mem hnd (hmem.mpr hin)
    · rw [if_neg hin]
      exact List.count_eq_zero_of_not_mem (fun hc => hin (hmem.mp hc))
  by_cases hi : i < inArr.length
  · rw [if_pos hi]
    have : (List.map ((fun l => List.count i l) ∘ fun x =>
        List.filter (fun j => inArr.getD j 0 == x)
          (List.range inArr.length)) toFind).sum =
        (toFind.map (fun x => if inArr.getD i 0 = x then 1 else 0)).sum := by
      congr 1
      apply List.map_congr_left
      intro x _
      show ((List.range inArr.length).filter
        (fun j => inArr.getD j 0 == x)).count i = _
      rw [hterm x]
      by_cases hx : inArr.getD i 0 = x
      · rw [if_pos ⟨hi, hx⟩, if_pos hx]
      · rw [if_neg (fun hc => hx hc.2), if_neg hx]
    rw [this, sum_map_indicator]
  · rw [if_neg hi]
    have : (List.map ((fun l => List.count i l) ∘ fun x =>
        List.filter (fun j => inArr.getD j 0 == x)
          (List.range inArr.length)) toFind).sum =
        (toFind.map (fun _ => (0 : Nat))).sum := by
      congr 1
      apply List.map_congr_left
      intro x _
      show ((List.range inArr.length).filter
        (fun j => inArr.getD j 0 == x)).count i = _
      rw [hterm x, if_neg (fun hc => hi hc.1)]
    rw [this]
    simp

/-- With pairwise-distinct requested values, the index lookup is a
permutation of the positions whose value is requested. -/
theorem getIdxs_perm (inArr toFind : List Int) (hnd : toFind.Nodup) :
    (getIdxs inArr toFind).Perm
      ((List.range inArr.length).filter
        (fun i => toFind.contains (inArr.getD i 0))) := by
  rw [List.perm_iff_count]
  intro i
  rw [getIdxs_count]
  have hndf : ((List.range inArr.length).filter
      (fun i => toFind.contains (inArr.getD i 0))).Nodup :=
    (List.nodup_range _).filter _
  have hmem : i ∈ (List.range inArr.length).filter
      (fun i => toFind.contains (inArr.getD i 0)) ↔
      i < inArr.length ∧ inArr.getD i 0 ∈ toFind := by
    rw [List.mem_filter, List.mem_range, List.elem_iff]
  by_cases hi : i < inArr.length
  · rw [if_pos hi]
    by_cases hm : inArr.getD i 0 ∈ toFind
    · rw [List.count_eq_one_of_mem hnd hm,
        List.count_eq_one_of_mem hndf (hmem.mpr ⟨hi, hm⟩)]
    · rw [List.count_eq_zero_of_not_mem hm,
        List.count_eq_zero_of_not_mem (fun hc => hm (hmem.mp hc).2)]
  · rw [if_neg hi,
      List.count_eq_zero_of_not_mem (fun hc => hi (hmem.mp hc).1)]

/-- Claim C10: for every non-empty array, looking up all its distinct values
returns a permutation of the full index range. -/
theorem get_idxs_roundtrip_perm (a : List Int) (ha : a ≠ []) :
    (getIdxs a (npUnique a)).Perm (List.range a.length) := by
  have hnd : (npUnique a).Nodup :=
    ((sortInts_perm a.dedup).nodup_iff).mpr (List.nodup_dedup a)
  refine (getIdxs_perm a (npUnique a) hnd).trans ?_
  rw [List.filter_eq_self.mpr]
  intro i hi
  rw [List.mem_range] at hi
  rw [List.elem_iff]
  unfold npUnique
  rw [(sortInts_perm a.dedup).mem_iff, List.mem_dedup]
  exact getD_mem_of_lt hi

/-- Witness for `get_idxs_roundtrip_perm` on a concrete four-element
array. -/
theorem get_idxs_roundtrip_perm_witness :
    ([3, 1, 3, 2] : List Int) ≠ [] ∧
    (getIdxs [3, 1, 3, 2] (npUnique [3, 1, 3, 2])).Perm
      (List.range ([3, 1, 3, 2] : List Int).length) :=
  ⟨by decide, get_idxs_roundtrip_perm [3, 1, 3, 2] (by decide)⟩

/-- Mapping value-filtered positions back through the list recovers the
filtered list itself. -/
theorem filter_range_map_getD {α : Type} [Inhabited α] (p : α → Bool) :
    ∀ (l : List α) (d : α),
      ((List.range l.length).filter (fun k => p (l.getD k d))).map
        (fun k => l.getD k d) = l.filter p
  | [], _ => rfl
  | a :: l, d => by
    have ih := filter_range_map_getD p l d
    have hcomp : ((fun k => p ((a :: l).getD k d)) ∘ Nat.succ) =
        (fun k => p (l.getD k d)) := by
      funext k
      simp [List.getD_cons_succ]
    have hcomp2 : ((fun k => (a :: l).getD k d) ∘ Nat.succ) =
        (fun k => l.getD k d) := by
      funext k
      simp [List.getD_cons_succ]
    rw [List.length_cons, List.range_succ_eq_map, List.filter_cons]
    by_cases hpa : p a = true
    · rw [if_pos (by simpa using hpa), List.map_cons, List.filter_map,
        hcomp, List.map_map, hcomp2, ih, List.filter_cons, if_pos hpa]
      simp
    · rw [if_neg (by simpa using hpa), List.filter_map, hcomp,
        List.map_map, hcomp2, ih, List.filter_cons, if_neg hpa]

/-- Entry `k` of the candidate end-position list. -/
theorem possibleTargets_getD (n L S k : Nat)
    (hk : k < (possibleTargets n L S).length) :
    (possibleTargets n L S).getD k 0 = L - 1 + k * S := by
  by_cases hnL : n < L
  · exact absurd hk (by simp [possibleTargets, hnL])
  · simp only [possibleTargets, if_neg hnL] at hk ⊢
    rw [List.getD_eq_getElem _ _ hk]
    simp

/-- Claim C6 helper: a candidate end position is exactly an index of the
form `L - 1 + k * S` inside the signal. -/
theorem possibleTargets_mem (n L S : Nat) (hL : 1 ≤ L) (hS : 1 ≤ S)
    (t : Nat) :
    t ∈ possibleTargets n L S ↔ (∃ k, t = L - 1 + k * S) ∧ t < n := by
  by_cases hnL : n < L
  · simp only [possibleTargets, if_pos hnL, List.not_mem_nil, false_iff]
    rintro ⟨⟨k, rfl⟩, hlt⟩
    omega
  · simp only [possibleTargets, if_neg hnL, List.mem_map, List.mem_range]
    constructor
    · rintro ⟨k, hk, rfl⟩
      refine ⟨⟨k, rfl⟩, ?_⟩
      have hd := Nat.div_mul_le_self (n - L) S
      have hk' : k ≤ (n - L) / S := by omega
      have := Nat.mul_le_mul_right S hk'
      omega
    · rintro ⟨⟨k, rfl⟩, hlt⟩
      refine ⟨k, ?_, rfl⟩
      have hks : k * S ≤ n - L := by omega
      have := (Nat.le_div_iff_mul_le (by omega : 0 < S)).mpr hks
      omega

/-- The repetition-filter stage of `get_windows` retains, up to permutation,
exactly the candidate ends whose repetition label is requested. -/
theorem windows_t1_perm (emgLen L S : Nat) (reps whichReps : List Int)
    (hnr : whichReps.Nodup) :
    ((getIdxs ((possibleTargets emgLen L S).map (fun i => reps.getD i 0))
        whichReps).map (fun k => L - 1 + k * S)).Perm
      ((possibleTargets emgLen L S).filter
        (fun t => whichReps.contains (reps.getD t 0))) := by
  have hperm := getIdxs_perm
    ((possibleTargets emgLen L S).map (fun i => reps.getD i 0)) whichReps hnr
  rw [List.length_map] at hperm
  have hfc : (List.range (possibleTargets emgLen L S).length).filter
      (fun k => whichReps.contains
        (((possibleTargets emgLen L S).map (fun i => reps.getD i 0)).getD k 0))
      = (List.range (possibleTargets emgLen L S).length).filter
        (fun k => whichReps.contains
          (reps.getD ((possibleTargets emgLen L S).getD k 0) 0)) := by
    apply List.filter_congr
    intro k hk
    rw [List.mem_range] at hk
    congr 1
    rw [List.getD_eq_getElem _ _ (by simpa using hk),
      List.getD_eq_getElem _ _ hk, List.getElem_map]
  rw [hfc] at hperm
  have hmap := hperm.map (fun k => L - 1 + k * S)
  refine hmap.trans ?_
  have hmc : (((List.range (possibleTargets emgLen L S).length).filter
      (fun k => whichReps.contains
        (reps.getD ((possibleTargets emgLen L S).getD k 0) 0)))).map
        (fun k => L - 1 + k * S)
      = (((List.range (possibleTargets emgLen L S).length).filter
        (fun k => whichReps.contains
          (reps.getD ((possibleTargets emgLen L S).getD k 0) 0)))).map
        (fun k => (possibleTargets emgLen L S).getD k 0) := by
    apply List.map_congr_left
    intro k hk
    have hk' := (List.mem_filter.mp hk).1
    rw [List.mem_range] at hk'
    exact (possibleTargets_getD emgLen L S k hk').symm
  rw [hmc,
    filter_range_map_getD (fun t => whichReps.contains (reps.getD t 0))
      (possibleTargets emgLen L S) 0]

/-- The movement-filter stage of `get_windows` retains, up to permutation,
exactly the already-selected ends whose movement label is requested. -/
theorem windows_t2_perm (t1 : List Nat) (moves : List Int) (wm : List Int)
    (hnm : wm.Nodup) :
    ((getIdxs (t1.map (fun i => moves.getD i 0)) wm).map
        (fun k => t1.getD k 0)).Perm
      (t1.filter (fun t => wm.contains (moves.getD t 0))) := by
  have hperm := getIdxs_perm (t1.map fun i => moves.getD i 0) wm hnm
  rw [List.length_map] at hperm
  have hfc : (List.range t1.length).filter
      (fun k => wm.contains ((t1.map (fun i => moves.getD i 0)).getD k 0))
      = (List.range t1.length).filter
        (fun k => wm.contains (moves.getD (t1.getD k 0) 0)) := by
    apply List.filter_congr
    intro k hk
    rw [List.mem_range] at hk
    congr 1
    rw [List.getD_eq_getElem _ _ (by simpa using hk),
      List.getD_eq_getElem _ _ hk, List.getElem_map]
  rw [hfc] at hperm
  refine (hperm.map (fun k => t1.getD k 0)).trans ?_
  rw [filter_range_map_getD (fun t => wm.contains (moves.getD t 0)) t1 0]

/-- With a single requested repetition value the repetition-filtered end
positions are strictly ascending. -/
theorem windows_t1_sorted (emgLen L S : Nat) (reps : List Int) (r : Int)
    (hS : 1 ≤ S) :
    ((getIdxs ((possibleTargets emgLen L S).map (fun i => reps.getD i 0))
        [r]).map (fun k => L - 1 + k * S)).Pairwise (· < ·) := by
  have h1 : getIdxs ((possibleTargets emgLen L S).map
      (fun i => reps.getD i 0)) [r] =
      (List.range ((possibleTargets emgLen L S).map
        (fun i => reps.getD i 0)).length).filter
        (fun j => ((possibleTargets emgLen L S).map
          (fun i => reps.getD i 0)).getD j 0 == r) := by
    simp [getIdxs]
  rw [h1]
  refine List.Pairwise.map _ ?_ ((List.pairwise_lt_range _).filter _)
  intro a b hab
  have h3 := Nat.mul_le_mul_right S hab
  rw [Nat.succ_mul] at h3
  omega

/-- Claim C6 (amended): whenever `get_windows` returns, there is exactly one
window per retained candidate end position (the produced end positions are a
permutation of the candidate ends, of the form `L-1+k·S` inside the signal,
whose repetition label — and movement label, when filtering — is requested);
each window consists of the `L` signal rows up to and including its end
sample with the labels at the end sample; windows are grouped by requested
label value rather than globally time-ordered
(`get_windows_order_claim_false`), and are in ascending end-position order
when a single repetition value is requested with no movement filter. -/
theorem get_windows_spec {α : Type} [Inhabited α] (whichReps : List Int)
    (L S : Nat) (emg : List (List α)) (moves reps : List Int)
    (whichMoves : Option (List Int))
    (X : List (List (List α))) (Y R : List Int)
    (h : getWindows whichReps L S emg moves reps whichMoves = some (X, Y, R))
    (hL : 1 ≤ L) (hS : 1 ≤ S) (hnr : whichReps.Nodup)
    (hnm : ∀ wm, whichMoves = some wm → wm.Nodup) :
    (∀ t, t ∈ possibleTargets emg.length L S ↔
      (∃ k, t = L - 1 + k * S) ∧ t < emg.length) ∧
    (windowTargets emg.length L S reps moves whichReps whichMoves).Perm
      (retainedEnds emg.length L S reps moves whichReps whichMoves) ∧
    X = (windowTargets emg.length L S reps moves whichReps whichMoves).map
      (fun t => winSlice emg L t) ∧
    Y = (windowTargets emg.length L S reps moves whichReps whichMoves).map
      (fun t => toInt8 (moves.getD t 0)) ∧
    R = (windowTargets emg.length L S reps moves whichReps whichMoves).map
      (fun t => toInt8 (reps.getD t 0)) ∧
    X.length = (retainedEnds emg.length L S reps moves whichReps
      whichMoves).length ∧
    (whichMoves = none → ∀ r, whichReps = [r] →
      (windowTargets emg.length L S reps moves whichReps
        whichMoves).Pairwise (· < ·)) := by
  refine ⟨possibleTargets_mem _ _ _ hL hS, ?_⟩
  cases whichMoves with
  | none =>
    simp only [getWindows] at h
    split at h
    · exact absurd h (by simp)
    · simp only [Option.some.injEq, Prod.mk.injEq] at h
      obtain ⟨hX, hY, hR⟩ := h
      have hre : retainedEnds emg.length L S reps moves whichReps none =
          (possibleTargets emg.length L S).filter
            (fun t => whichReps.contains (reps.getD t 0)) := by
        simp only [retainedEnds]
        exact List.filter_congr (fun t _ => Bool.and_true _)
      have hwt : windowTargets emg.length L S reps moves whichReps none =
          (getIdxs ((possibleTargets emg.length L S).map
            (fun i => reps.getD i 0)) whichReps).map
            (fun k => L - 1 + k * S) := rfl
      have hperm := windows_t1_perm emg.length L S reps whichReps hnr
      refine ⟨?_, ?_, ?_, ?_, ?_, ?_⟩
      · rw [hwt, hre]
        exact hperm
      · rw [hwt, ← hX]
      · rw [hwt, ← hY]
      · rw [hwt, ← hR]
      · rw [← hX, List.length_map, hre]
        exact hperm.length_eq
      · intro _ r hr
        rw [hwt, hr]
        exact windows_t1_sorted emg.length L S reps r hS
  | some wm =>
    have hnm' := hnm wm rfl
    simp only [getWindows] at h
    split at h
    · exact absurd h (by simp)
    · split at h
      · exact absurd h (by simp)
      · simp only [Option.some.injEq, Prod.mk.injEq] at h
        obtain ⟨hX, hY, hR⟩ := h
        have hre : retainedEnds emg.length L S reps moves whichReps
            (some wm) =
            (possibleTargets emg.length L S).filter
              (fun t => whichReps.contains (reps.getD t 0) &&
                wm.contains (moves.getD t 0)) := rfl
        have hwt : windowTargets emg.length L S reps moves whichReps
            (some wm) =
            (getIdxs (((getIdxs ((possibleTargets emg.length L S).map
              (fun i => reps.getD i 0)) whichReps).map
                (fun k => L - 1 + k * S)).map
              (fun i => moves.getD i 0)) wm).map
              (fun k => ((getIdxs ((possibleTargets emg.length L S).map
                (fun i => reps.getD i 0)) whichReps).map
                  (fun k => L - 1 + k * S)).getD k 0) := rfl
        have ht2 := windows_t2_perm
          ((getIdxs ((possibleTargets emg.length L S).map
            (fun i => reps.getD i 0)) whichReps).map
            (fun k => L - 1 + k * S)) moves wm hnm'
        have ht1 := windows_t1_perm emg.length L S reps whichReps hnr
        have heq : ((possibleTargets emg.length L S).filter
            (fun t => whichReps.contains (reps.getD t 0))).filter
              (fun t => wm.contains (moves.getD t 0))
            = (possibleTargets emg.length L S).filter
              (fun t => whichReps.contains (reps.getD t 0) &&
                wm.contains (moves.getD t 0)) := by
          rw [List.filter_filter]
          exact List.filter_congr (fun t _ => Bool.and_comm _ _)
        have hfin := ht2.trans
          (ht1.filter (fun t => wm.contains (moves.getD t 0)))
        rw [heq] at hfin
        have hperm : (windowTargets emg.length L S reps moves whichReps
            (some wm)).Perm
            (retainedEnds emg.length L S reps moves whichReps (some wm)) := by
          rw [hwt, hre]
          exact hfin
        refine ⟨hperm, ?_, ?_, ?_, ?_, ?_⟩
        · rw [hwt, ← hX]
        · rw [hwt, ← hY]
        · rw [hwt, ← hR]
        · rw [← hX, List.length_map]
          exact hperm.length_eq
        · intro habs
          exact absurd habs (by simp)

/-- Witness for `get_windows_spec` on the spec's worked example: a 12-sample
single-repetition, single-movement signal with window length 5 and increment
2 yields the four windows ending at 4, 6, 8 and 10. -/
theorem get_windows_spec_witness :
    (getWindows [1] 5 2
        [[(0 : Int)], [1], [2], [3], [4], [5], [6], [7], [8], [9], [10], [11]]
        (List.replicate 12 1) (List.replicate 12 1) none =
      some ([[[0], [1], [2], [3], [4]], [[2], [3], [4], [5], [6]],
             [[4], [5], [6], [7], [8]], [[6], [7], [8], [9], [10]]],
            [1, 1, 1, 1], [1, 1, 1, 1]) ∧
     ([1] : List Int).Nodup) ∧
    ((∀ t, t ∈ possibleTargets 12 5 2 ↔
        (∃ k, t = 5 - 1 + k * 2) ∧ t < 12) ∧
     (windowTargets 12 5 2 (List.replicate 12 1) (List.replicate 12 1)
        [1] none).Perm
       (retainedEnds 12 5 2 (List.replicate 12 1) (List.replicate 12 1)
        [1] none) ∧
     ([[[(0 : Int)], [1], [2], [3], [4]], [[2], [3], [4], [5], [6]],
       [[4], [5], [6], [7], [8]], [[6], [7], [8], [9], [10]]] =
       (windowTargets 12 5 2 (List.replicate 12 1) (List.replicate 12 1)
          [1] none).map
         (fun t => winSlice
           [[(0 : Int)], [1], [2], [3], [4], [5], [6], [7], [8], [9], [10],
            [11]] 5 t)) ∧
     ([(1 : Int), 1, 1, 1] =
       (windowTargets 12 5 2 (List.replicate 12 1) (List.replicate 12 1)
          [1] none).map
         (fun t => toInt8 ((List.replicate 12 (1 : Int)).getD t 0))) ∧
     ([(1 : Int), 1, 1, 1] =
       (windowTargets 12 5 2 (List.replicate 12 1) (List.replicate 12 1)
          [1] none).map
         (fun t => toInt8 ((List.replicate 12 (1 : Int)).getD t 0))) ∧
     ([[[(0 : Int)], [1], [2], [3], [4]], [[2], [3], [4], [5], [6]],
       [[4], [5], [6], [7], [8]],
       [[6], [7], [8], [9], [10]]] : List (List (List Int))).length =
       (retainedEnds 12 5 2 (List.replicate 12 1) (List.replicate 12 1)
          [1] none).length ∧
     ((none : Option (List Int)) = none → ∀ r, ([1] : List Int) = [r] →
       (windowTargets 12 5 2 (List.replicate 12 1) (List.replicate 12 1)
          [1] none).Pairwise (· < ·))) :=
  ⟨⟨by decide, by decide⟩,
   get_windows_spec [1] 5 2
     [[(0 : Int)], [1], [2], [3], [4], [5], [6], [7], [8], [9], [10], [11]]
     (List.replicate 12 1) (List.replicate 12 1) none
     [[[0], [1], [2], [3], [4]], [[2], [3], [4], [5], [6]],
      [[4], [5], [6], [7], [8]], [[6], [7], [8], [9], [10]]]
     [1, 1, 1, 1] [1, 1, 1, 1]
     (by decide) (by decide) (by decide) (by decide)
     (by intro wm h; cases h)⟩

/-- Every emitted combination is a sublist of the id list. -/
theorem combinationsList_sublist : ∀ (l : List Int) (k : Nat)
    (c : List Int), c ∈ combinationsList l k → c.Sublist l
  | l, 0, c, h => by
    have he : combinationsList l 0 = [[]] := by cases l <;> rfl
    rw [he, List.mem_singleton] at h
    rw [h]
    exact List.nil_sublist l
  | [], _ + 1, c, h => by simp [combinationsList] at h
  | x :: xs, k + 1, c, h => by
    rw [combinationsList] at h
    rcases List.mem_append.mp h with h1 | h1
    · obtain ⟨c', hc', rfl⟩ := List.mem_map.mp h1
      exact (combinationsList_sublist xs k c' hc').cons₂ x
    · exact (combinationsList_sublist xs (k + 1) c h1).cons x

/-- Every emitted combination has the requested size. -/
theorem combinationsList_length : ∀ (l : List Int) (k : Nat)
    (c : List Int), c ∈ combinationsList l k → c.length = k
  | l, 0, c, h => by
    have he : combinationsList l 0 = [[]] := by cases l <;> rfl
    rw [he, List.mem_singleton] at h
    rw [h]
    rfl
  | [], _ + 1, c, h => by simp [combinationsList] at h
  | x :: xs, k + 1, c, h => by
    rw [combinationsList] at h
    rcases List.mem_append.mp h with h1 | h1
    · obtain ⟨c', hc', rfl⟩ := List.mem_map.mp h1
      rw [List.length_cons, combinationsList_length xs k c' hc']
    · exact combinationsList_length xs (k + 1) c h1

/-- Members bound the fold maximum from below. -/
theorem le_listMax_of_mem : ∀ (l : List Nat) (a : Nat), a ∈ l → a ≤ listMax l
  | [], _, h => absurd h (List.not_mem_nil _)
  | x :: xs, a, h => by
    rw [listMax]
    rcases List.mem_cons.mp h with rfl | h1
    · exact le_max_left _ _
    · exact le_trans (le_listMax_of_mem xs a h1) (le_max_right _ _)

/-- A successful balance check bounds every id count in the checked rows. -/
theorem maxCount_le (rows : List (List Int)) (mx : Nat)
    (h : maxCount rows = some mx) (x : Int) :
    rows.flatten.count x ≤ mx := by
  simp only [maxCount] at h
  split at h
  · exact absurd h (by simp)
  · injection h with h'
    by_cases hx : x ∈ rows.flatten
    · rw [← h']
      exact le_listMax_of_mem _ _
        (List.mem_map.mpr ⟨x, List.mem_dedup.mpr hx, rfl⟩)
    · rw [List.count_eq_zero_of_not_mem hx]
      exact Nat.zero_le _

/-- Defaulted lookup after an in-range write. -/
theorem getD_set_self {α : Type} (l : List α) (i : Nat) (v d : α)
    (h : i < l.length) : (l.set i v).getD i d = v := by
  rw [List.getD_eq_getElem _ _ (by simpa using h)]
  exact List.getElem_set_self _

/-- Defaulted lookup away from a write. -/
theorem getD_set_ne {α : Type} (l : List α) {i j : Nat} (v d : α)
    (h : i ≠ j) : (l.set i v).getD j d = l.getD j d := by
  by_cases hj : j < l.length
  · rw [List.getD_eq_getElem _ _ (by simpa using hj),
      List.getD_eq_getElem _ _ hj]
    exact List.getElem_set_ne h _
  · rw [List.getD_eq_default _ _ (by simpa using Nat.le_of_not_lt hj),
      List.getD_eq_default _ _ (Nat.le_of_not_lt hj)]

/-- A write at or past the taken prefix leaves the prefix unchanged. -/
theorem take_set_of_le {α : Type} (v : α) : ∀ (l : List α) (i cs : Nat),
    cs ≤ i → (l.set i v).take cs = l.take cs
  | [], _, _, _ => rfl
  | _ :: _, _, 0, _ => by simp
  | _ :: _, 0, _ + 1, h => absurd h (by omega)
  | x :: xs, i + 1, cs + 1, h => by
    rw [List.set_cons_succ, List.take_succ_cons, List.take_succ_cons,
      take_set_of_le v xs i cs (by omega)]

/-- Taking one past an in-range write appends the written row. -/
theorem take_set_succ {α : Type} (v : α) : ∀ (l : List α) (cs : Nat),
    cs < l.length → (l.set cs v).take (cs + 1) = l.take cs ++ [v]
  | [], _, h => absurd h (by simp)
  | x :: xs, 0, _ => by simp
  | x :: xs, cs + 1, h => by
    rw [List.set_cons_succ, List.take_succ_cons, List.take_succ_cons,
      take_set_succ v xs cs (by simpa using h), List.cons_append]

/-- At loop exit every fold row is an enumerated combination and no id count
exceeds the bound. -/
theorem balInv_extract (allCombos : List (List Int)) (nbSplits nbTest : Nat)
    (st : BalSt) (hinv : BalInv allCombos nbSplits nbTest st)
    (hcs : nbSplits ≤ st.curSplit) :
    st.testReps.length = nbSplits ∧
    (∀ j, j < nbSplits → st.testReps.getD j [] ∈ allCombos) ∧
    (∀ x : Int, st.testReps.flatten.count x ≤ nbTest) := by
  obtain ⟨hlen, hrows, hcount, _⟩ := hinv
  refine ⟨hlen, fun j hj => hrows j (by omega) hj, fun x => ?_⟩
  have hx := hcount x
  rwa [List.take_of_length_le (by omega)] at hx

/-- Rejecting a draw preserves the loop invariant. -/
theorem balInv_reject (allCombos : List (List Int)) (nbSplits nbTest : Nat)
    (st1 : BalSt) (idx : Nat)
    (hinv : BalInv allCombos nbSplits nbTest st1) :
    BalInv allCombos nbSplits nbTest
      ⟨(st1.testReps.set st1.curSplit (st1.pool.getD idx [])).set
          st1.curSplit (List.replicate nbTest 0),
        st1.pool.eraseIdx idx, st1.curSplit, st1.resetCounter + 1⟩ := by
  obtain ⟨hlen, hrows, hcount, hpool⟩ := hinv
  refine ⟨by simp [hlen], ?_, ?_, ?_⟩
  · intro j hj hj2
    have hj' : j < st1.curSplit := hj
    show ((st1.testReps.set st1.curSplit _).set st1.curSplit _).getD j [] ∈ _
    rw [getD_set_ne _ _ _ (by omega), getD_set_ne _ _ _ (by omega)]
    exact hrows j hj' hj2
  · intro x
    show ((((st1.testReps.set st1.curSplit _).set st1.curSplit _).take
      st1.curSplit).flatten).count x ≤ nbTest
    rw [take_set_of_le _ _ _ _ (le_refl _), take_set_of_le _ _ _ _ (le_refl _)]
    exact hcount x
  · exact fun c hc => hpool ((List.eraseIdx_sublist _ _).subset hc)

/-- Accepting a draw that passes the balance check preserves the loop
invariant. -/
theorem balInv_accept (allCombos : List (List Int)) (nbSplits nbTest : Nat)
    (st1 : BalSt) (idx : Nat) (mx : Nat)
    (hinv : BalInv allCombos nbSplits nbTest st1)
    (hidx : idx < st1.pool.length)
    (hmx : maxCount ((st1.testReps.set st1.curSplit
      (st1.pool.getD idx [])).take (st1.curSplit + 1)) = some mx)
    (hle : mx ≤ nbTest) :
    BalInv allCombos nbSplits nbTest
      ⟨st1.testReps.set st1.curSplit (st1.pool.getD idx []),
        st1.pool.eraseIdx idx, st1.curSplit + 1, 0⟩ := by
  obtain ⟨hlen, hrows, hcount, hpool⟩ := hinv
  refine ⟨by simp [hlen], ?_, ?_, ?_⟩
  · intro j hj hj2
    have hj' : j < st1.curSplit + 1 := hj
    show (st1.testReps.set st1.curSplit _).getD j [] ∈ _
    by_cases hji : j = st1.curSplit
    · rw [hji, getD_set_self _ _ _ _ (by omega)]
      exact hpool (getD_mem_of_lt hidx)
    · rw [getD_set_ne _ _ _ (fun he => hji he.symm)]
      exact hrows j (by omega) hj2
  · intro x
    exact le_trans (maxCount_le _ mx hmx x) hle
  · exact fun c hc => hpool ((List.eraseIdx_sublist _ _).subset hc)

/-- Soundness of the balanced-split retry loop: whatever random draws occur,
a returned test table has one enumerated combination per fold and no id
appearing more than `nb_test` times. -/
theorem balLoop_sound (nbSplits nbTest : Nat) (poolCopy : List (List Int))
    (base : Option (List Int)) (allCombos : List (List Int))
    (hreset : BalInv allCombos nbSplits nbTest
      ⟨resetTest nbSplits nbTest base, poolCopy, baseSplit base, 0⟩) :
    ∀ (rs : List Nat) (st : BalSt),
      BalInv allCombos nbSplits nbTest st →
      ∀ tr, balLoop nbSplits nbTest poolCopy base rs st = some tr →
        tr.length = nbSplits ∧
        (∀ j, j < nbSplits → tr.getD j [] ∈ allCombos) ∧
        (∀ x : Int, tr.flatten.count x ≤ nbTest)
  | [], st, hinv, tr, h => by
    rw [balLoop] at h
    split at h
    · rename_i hcs
      injection h with h'
      rw [← h']
      exact balInv_extract allCombos nbSplits nbTest st hinv hcs
    · exact absurd h (by simp)
  | r :: rs', st, hinv, tr, h => by
    rw [balLoop] at h
    split at h
    · rename_i hcs
      injection h with h'
      rw [← h']
      exact balInv_extract allCombos nbSplits nbTest st hinv hcs
    · rename_i hcs
      dsimp only at h
      have hinv1 : BalInv allCombos nbSplits nbTest
          (if 10 ≤ st.resetCounter ∨ st.pool.isEmpty = true then
            ⟨resetTest nbSplits nbTest base, poolCopy, baseSplit base, 0⟩
          else st) := by
        split
        · exact hreset
        · exact hinv
      set st1 : BalSt :=
        (if 10 ≤ st.resetCounter ∨ st.pool.isEmpty = true then
          ⟨resetTest nbSplits nbTest base, poolCopy, baseSplit base, 0⟩
        else st) with hst1
      split at h
      · exact absurd h (by simp)
      · rename_i hpne
        split at h
        · exact absurd h (by simp)
        · rename_i mx hmx
          have hidx : r % st1.pool.length < st1.pool.length :=
            Nat.mod_lt _ (by
              rcases Nat.eq_zero_or_pos st1.pool.length with h0 | h0
              · exact absurd (List.isEmpty_iff_length_eq_zero.mpr h0) hpne
              · exact h0)
          split at h
          · exact balLoop_sound nbSplits nbTest poolCopy base allCombos
              hreset rs' _ (balInv_reject allCombos nbSplits nbTest st1
                (r % st1.pool.length) hinv1) tr h
          · rename_i hacc
            exact balLoop_sound nbSplits nbTest poolCopy base allCombos
              hreset rs' _ (balInv_accept allCombos nbSplits nbTest st1
                (r % st1.pool.length) mx hinv1 hidx hmx (by omega)) tr h

/-- Membership in the embedded `np.setdiff1d`. -/
theorem mem_setdiff1d (l r : List Int) (x : Int) :
    x ∈ setdiff1d l r ↔ x ∈ l ∧ x ∉ r := by
  unfold setdiff1d
  rw [(sortInts_perm _).mem_iff, List.mem_dedup, List.mem_filter]
  simp [List.elem_iff]

/-- Pigeonhole step: if every one of `len(rep_ids)` rows has `nb_test`
entries drawn from the distinct `rep_ids` and no id occurs more than
`nb_test` times in total, every id occurs exactly `nb_test` times. -/
theorem count_eq_of_bounds (repIds : List Int) (nbTest : Nat)
    (rows : List (List Int)) (hnd : repIds.Nodup)
    (hlenr : rows.length = repIds.length)
    (hrow : ∀ row ∈ rows, row.length = nbTest ∧ row ⊆ repIds)
    (hcnt : ∀ x : Int, rows.flatten.count x ≤ nbTest) :
    ∀ x ∈ repIds, rows.flatten.count x = nbTest := by
  intro x0 hx0
  by_contra hne
  have hlt : rows.flatten.count x0 < nbTest := lt_of_le_of_ne (hcnt x0) hne
  have htot : rows.flatten.length = repIds.length * nbTest := by
    rw [List.length_flatten]
    have hmc : rows.map List.length = List.replicate rows.length nbTest := by
      rw [List.map_congr_left (fun row hr => (hrow row hr).1)]
      exact List.map_const' rows nbTest
    rw [hmc, List.sum_replicate, smul_eq_mul, hlenr]
  have hsub : rows.flatten.toFinset ⊆ repIds.toFinset := by
    intro y hy
    rw [List.mem_toFinset] at hy
    obtain ⟨row, hr, hyr⟩ := List.mem_flatten.mp hy
    exact List.mem_toFinset.mpr ((hrow row hr).2 hyr)
  have hsum : ∑ y ∈ repIds.toFinset, rows.flatten.count y =
      rows.flatten.length := by
    rw [← Finset.sum_subset hsub (fun y _ hny =>
      List.count_eq_zero_of_not_mem (fun hc => hny (List.mem_toFinset.mpr hc)))]
    have hm := Multiset.toFinset_sum_count_eq (↑rows.flatten : Multiset Int)
    simpa using hm
  have hstrict : ∑ y ∈ repIds.toFinset, rows.flatten.count y <
      ∑ _y ∈ repIds.toFinset, nbTest :=
    Finset.sum_lt_sum (fun i _ => hcnt i) ⟨x0, List.mem_toFinset.mpr hx0, hlt⟩
  rw [hsum, htot, Finset.sum_const, List.toFinset_card_of_nodup hnd,
    smul_eq_mul] at hstrict
  exact absurd hstrict (lt_irrefl _)

/-- Claim C2: for distinct repetition ids and `nb_test < len(rep_ids)`,
whenever `gen_split_balanced` returns it returns one fold per repetition id,
every repetition id appears as a test member exactly `nb_test` times across
all folds, and in every fold the train row and the test row are disjoint
with union the full repetition id set. -/
theorem gen_split_balanced_balanced (repIds : List Int) (nbTest : Nat)
    (base : Option (List Int)) (randoms : List Nat)
    (train test : List (List Int))
    (hnd : repIds.Nodup) (hlt : nbTest < repIds.length)
    (h : genSplitBalanced repIds nbTest base randoms = some (train, test)) :
    test.length = repIds.length ∧ train.length = repIds.length ∧
    (∀ x ∈ repIds, test.flatten.count x = nbTest) ∧
    (∀ i, i < repIds.length →
      (∀ x, x ∈ repIds ↔ x ∈ test.getD i [] ∨ x ∈ train.getD i []) ∧
      (∀ x, x ∈ test.getD i [] → x ∉ train.getD i [])) := by
  have hmain : ∃ testReps : List (List Int),
      testReps = test ∧ testReps.map (fun row => setdiff1d repIds row) = train ∧
      testReps.length = repIds.length ∧
      (∀ j, j < repIds.length →
        testReps.getD j [] ∈ combinationsList repIds nbTest) ∧
      (∀ x : Int, testReps.flatten.count x ≤ nbTest) := by
    simp only [genSplitBalanced] at h
    rw [if_neg (by omega)] at h
    cases base with
    | none =>
      dsimp only at h
      rw [Option.map_eq_some'] at h
      obtain ⟨testReps, hbl, heq⟩ := h
      rw [Prod.mk.injEq] at heq
      have hreset : BalInv (combinationsList repIds nbTest) repIds.length
          nbTest ⟨resetTest repIds.length nbTest none,
            combinationsList repIds nbTest, baseSplit none, 0⟩ := by
        refine ⟨by simp [resetTest], ?_, ?_, fun c hc => hc⟩
        · intro j hj
          exact absurd hj (by simp [baseSplit])
        · intro x
          simp [baseSplit]
      have hs := balLoop_sound repIds.length nbTest
        (combinationsList repIds nbTest) none
        (combinationsList repIds nbTest) hreset randoms _ hreset testReps hbl
      exact ⟨testReps, heq.2, heq.1, hs.1, fun j hj => hs.2.1 j hj, hs.2.2⟩
    | some b =>
      dsimp only at h
      by_cases hb : b ∈ combinationsList repIds nbTest
      · rw [if_pos hb] at h
        dsimp only at h
        rw [Option.map_eq_some'] at h
        obtain ⟨testReps, hbl, heq⟩ := h
        rw [Prod.mk.injEq] at heq
        have hreset : BalInv (combinationsList repIds nbTest) repIds.length
            nbTest ⟨resetTest repIds.length nbTest (some b),
              (combinationsList repIds nbTest).erase b, baseSplit (some b),
              0⟩ := by
          refine ⟨by simp [resetTest], ?_, ?_,
            fun c hc => (List.erase_sublist b _).subset hc⟩
          · intro j hj hj2
            have hj' : j < baseSplit (some b) := hj
            have hj0 : j = 0 := by
              simp only [baseSplit] at hj'
              omega
            show (resetTest repIds.length nbTest (some b)).getD j [] ∈ _
            rw [hj0]
            simp only [resetTest]
            rw [getD_set_self _ _ _ _ (by simp; omega)]
            exact hb
          · intro x
            show (((resetTest repIds.length nbTest (some b)).take
              (baseSplit (some b))).flatten).count x ≤ nbTest
            simp only [resetTest, baseSplit]
            obtain ⟨n', hn'⟩ : ∃ n', repIds.length = n' + 1 :=
              ⟨repIds.length - 1, by omega⟩
            rw [hn', List.replicate_succ, List.set_cons_zero]
            rw [List.take_succ_cons, List.take_zero]
            have := List.count_le_length x b
            rw [combinationsList_length repIds nbTest b hb] at this
            simpa using this
        have hs := balLoop_sound repIds.length nbTest
          ((combinationsList repIds nbTest).erase b) (some b)
          (combinationsList repIds nbTest) hreset randoms _ hreset testReps hbl
        exact ⟨testReps, heq.2, heq.1, hs.1, fun j hj => hs.2.1 j hj, hs.2.2⟩
      · rw [if_neg hb] at h
        exact absurd h (by simp)
  obtain ⟨testReps, rfl, htr, hlen, hrows, hcnt⟩ := hmain
  have hrowmem : ∀ row ∈ testReps, row.length = nbTest ∧ row ⊆ repIds := by
    intro row hrow
    obtain ⟨j, hj, hje⟩ := List.mem_iff_getElem.mp hrow
    have hj' : j < repIds.length := by omega
    have : testReps.getD j [] = row := by
      rw [List.getD_eq_getElem _ _ hj, hje]
    have hcomb := hrows j hj'
    rw [this] at hcomb
    exact ⟨combinationsList_length repIds nbTest row hcomb,
      (combinationsList_sublist repIds nbTest row hcomb).subset⟩
  have hcounts := count_eq_of_bounds repIds nbTest testReps hnd hlen
    hrowmem hcnt
  refine ⟨hlen, by rw [← htr, List.length_map, hlen], hcounts, ?_⟩
  intro i hi
  have hrowi := hrows i hi
  have htraini : train.getD i [] = setdiff1d repIds (testReps.getD i []) := by
    rw [← htr]
    rw [List.getD_eq_getElem _ _ (by rw [List.length_map]; omega),
      List.getElem_map, List.getD_eq_getElem _ _ (by omega)]
  have hsubi : testReps.getD i [] ⊆ repIds :=
    (combinationsList_sublist repIds nbTest _ hrowi).subset
  constructor
  · intro x
    rw [htraini, mem_setdiff1d]
    constructor
    · intro hx
      by_cases hxt : x ∈ testReps.getD i []
      · exact Or.inl hxt
      · exact Or.inr ⟨hx, hxt⟩
    · rintro (hx | ⟨hx, _⟩)
      · exact hsubi hx
      · exact hx
  · intro x hx
    rw [htraini, mem_setdiff1d]
    rintro ⟨_, hnx⟩
    exact hnx hx

/-- Witness for `gen_split_balanced_balanced` on `rep_ids = [1, 2]`,
`nb_test = 1`: the call returns test folds `[[1], [2]]` and train folds
`[[2], [1]]`. -/
theorem gen_split_balanced_balanced_witness :
    (genSplitBalanced [1, 2] 1 none [0, 0] = some ([[2], [1]], [[1], [2]]) ∧
     ([1, 2] : List Int).Nodup ∧ 1 < ([1, 2] : List Int).length) ∧
    (([[1], [2]] : List (List Int)).length = ([1, 2] : List Int).length ∧
     ([[2], [1]] : List (List Int)).length = ([1, 2] : List Int).length ∧
     (∀ x ∈ ([1, 2] : List Int),
        ([[1], [2]] : List (List Int)).flatten.count x = 1) ∧
     (∀ i, i < ([1, 2] : List Int).length →
       (∀ x, x ∈ ([1, 2] : List Int) ↔
         x ∈ ([[1], [2]] : List (List Int)).getD i [] ∨
         x ∈ ([[2], [1]] : List (List Int)).getD i []) ∧
       (∀ x, x ∈ ([[1], [2]] : List (List Int)).getD i [] →
         x ∉ ([[2], [1]] : List (List Int)).getD i []))) :=
  ⟨⟨by decide, by decide, by decide⟩,
   gen_split_balanced_balanced [1, 2] 1 none [0, 0] [[2], [1]] [[1], [2]]
     (by decide) (by decide) (by decide)⟩

/-- Claim C9 (counterexample): `normalise_emg` standardizes the caller's
array in place (`StandardScaler(copy=False)`), so after the call the
caller's buffer no longer holds the original samples: on the two-row signal
`[[0], [2]]` with both rows in training, the buffer afterwards holds
`[[-1], [1]]`. -/
theorem normalise_emg_mutates_buffer :
    (normaliseEmg [[0], [2]] [1, 1] [1] none none).2 ≠ [[(0 : ℝ)], [2]] := by
  have hft : fitTargets [1, 1] [1] none none = [0, 1] := by decide
  have h2 : (normaliseEmg [[0], [2]] [1, 1] [1] none none).2 =
      [[(-1 : ℝ)], [1]] := by
    unfold normaliseEmg
    rw [hft]
    have hlist : ([0, 1] : List Nat).map
        (fun i => ([[0], [2]] : List (List ℝ)).getD i []) = [[0], [2]] := rfl
    rw [hlist]
    have hmean : scalerMean ([[0], [2]] : List (List ℝ)) 0 = 1 := by
      norm_num [scalerMean]
    have hscale : scalerScale ([[0], [2]] : List (List ℝ)) 0 = 1 := by
      have hvar : scalerVar ([[0], [2]] : List (List ℝ)) 0 = 1 := by
        norm_num [scalerVar, hmean]
      rw [scalerScale, hvar, Real.sqrt_one]
      simp
    simp only [List.map_cons, List.map_nil, List.mapIdx_cons, List.mapIdx_nil]
    rw [hmean, hscale]
    norm_num
  rw [h2]
  intro hc
  rw [List.cons.injEq, List.cons.injEq] at hc
  have := hc.1.1
  norm_num at this

/-- Claim C9 (amended): `normalise_emg` fits the scaler on the selected
training rows only — the standardization parameters are unchanged by edits
to rows outside the training selection — but it standardizes the caller's
float array in place via `StandardScaler(copy=False)` and returns that same
buffer, so the caller's array does not keep its original values
(`normalise_emg_mutates_buffer`). -/
theorem normalise_emg_inplace_fit_on_train (emg emg' : List (List ℝ))
    (reps trainReps : List Int) (movements whichMoves : Option (List Int))
    (hagree : (fitTargets reps trainReps movements whichMoves).map
        (fun i => emg.getD i []) =
      (fitTargets reps trainReps movements whichMoves).map
        (fun i => emg'.getD i [])) :
    (normaliseEmg emg reps trainReps movements whichMoves).2 =
      (normaliseEmg emg reps trainReps movements whichMoves).1 ∧
    (∀ j, scalerMean ((fitTargets reps trainReps movements whichMoves).map
        (fun i => emg.getD i [])) j =
      scalerMean ((fitTargets reps trainReps movements whichMoves).map
        (fun i => emg'.getD i [])) j ∧
      scalerScale ((fitTargets reps trainReps movements whichMoves).map
        (fun i => emg.getD i [])) j =
      scalerScale ((fitTargets reps trainReps movements whichMoves).map
        (fun i => emg'.getD i [])) j) := by
  refine ⟨rfl, fun j => ?_⟩
  rw [hagree]
  exact ⟨rfl, rfl⟩

/-- Witness for `normalise_emg_inplace_fit_on_train`: appending a row that
the training selection does not pick leaves the fitted parameters
unchanged. -/
theorem normalise_emg_inplace_fit_on_train_witness :
    ((fitTargets [1, 1] [1] none none).map
        (fun i => ([[1], [5]] : List (List ℝ)).getD i []) =
      (fitTargets [1, 1] [1] none none).map
        (fun i => ([[1], [5], [99]] : List (List ℝ)).getD i [])) ∧
    ((normaliseEmg [[1], [5]] [1, 1] [1] none none).2 =
      (normaliseEmg [[1], [5]] [1, 1] [1] none none).1 ∧
     (∀ j, scalerMean ((fitTargets [1, 1] [1] none none).map
        (fun i => ([[1], [5]] : List (List ℝ)).getD i [])) j =
      scalerMean ((fitTargets [1, 1] [1] none none).map
        (fun i => ([[1], [5], [99]] : List (List ℝ)).getD i [])) j ∧
      scalerScale ((fitTargets [1, 1] [1] none none).map
        (fun i => ([[1], [5]] : List (List ℝ)).getD i [])) j =
      scalerScale ((fitTargets [1, 1] [1] none none).map
        (fun i => ([[1], [5], [99]] : List (List ℝ)).getD i [])) j)) :=
  ⟨rfl, normalise_emg_inplace_fit_on_train [[1], [5]] [[1], [5], [99]]
    [1, 1] [1] none none rfl⟩
